import Mathlib

/-!
Verification of the bech32 / BOLT11 invoice encoder.

The definitions below are shallow embeddings of the Rust sources:
`src/bech32.rs` (the `U5Bits` symbol type, the 8-to-5 and 5-to-8 bit
repackers, the BCH polymod and checksum), `src/bolt11.rs` (the invoice
encoder front end, amount shortening, the tag-walking decoder loop) and
`src/invoice.rs` (the field-ordered invoice serializer).  Machine
integers are modelled as `Nat` with explicit `% 2 ^ w` truncation where
the Rust value could overflow; byte inputs carry `< 256` hypotheses
mirroring `u8`.
-/

namespace Bolt11Forge

/-- The bech32 alphabet, `CHARSET` in `src/bech32.rs`. -/
def CHARSET : List Char :=
  ['q', 'p', 'z', 'r', 'y', '9', 'x', '8', 'g', 'f', '2', 't', 'v', 'd', 'w', '0',
   's', '3', 'j', 'n', '5', '4', 'k', 'h', 'c', 'e', '6', 'm', 'u', 'a', '7', 'l']

/-- A 5-bit value used in bech32 encoding: the newtype `U5Bits(u8)`.
The Rust type does not carry the 0..31 invariant in its representation
(`new_unchecked` exists), so the model wraps a bare `Nat` and the
invariant is proved about each construction path. -/
structure U5Bits where
  val : Nat
deriving Repr, DecidableEq

/-- `U5Bits::new`: `Some` iff the value is at most 31. -/
def U5Bits.new (value : Nat) : Option U5Bits :=
  if value ≤ 31 then some ⟨value⟩ else none

/-- `TryFrom<u8> for U5Bits`: `Ok` iff the value is at most 31, the
offending value is returned in the error otherwise. -/
def u5_try_from (value : Nat) : Except Nat U5Bits :=
  if value ≤ 31 then Except.ok ⟨value⟩ else Except.error value

/-- `Iterator::position` as used by `U5Bits::from_char`. -/
def position (p : Char → Bool) : List Char → Option Nat
  | [] => none
  | x :: xs => if p x then some 0 else (position p xs).map (· + 1)

/-- `U5Bits::from_char`: index of the character in the bech32 alphabet. -/
def U5Bits.from_char (c : Char) : Option U5Bits :=
  (position (fun x => x = c) CHARSET).map (fun i => ⟨i⟩)

/-- `U5Bits::to_char`. -/
def U5Bits.to_char (u : U5Bits) : Char := CHARSET.getD u.val 'q'

/-- The inner `while bits >= 5` loop of `bytes_to_u5_bits`: emits the
pending high 5-bit groups of `acc`, returning the new bit count and the
emitted symbols in order. -/
def u5push (acc : Nat) : Nat → Nat × List U5Bits
  | bits + 5 =>
    let p := u5push acc bits
    (p.1, ⟨(acc >>> bits) &&& 31⟩ :: p.2)
  | bits => (bits, [])

/-- The main loop of `U5Bits::bytes_to_u5_bits`, carrying the `u32`
accumulator (hence the `% 2 ^ 32`) and pending bit count. -/
def b2u5Go : List Nat → Nat → Nat → List U5Bits
  | [], acc, bits => if 0 < bits then [⟨(acc <<< (5 - bits)) &&& 31⟩] else []
  | x :: xs, acc, bits =>
    let acc2 := ((acc <<< 8) ||| x) % 2 ^ 32
    let p := u5push acc2 (bits + 8)
    p.2 ++ b2u5Go xs acc2 p.1

/-- `U5Bits::bytes_to_u5_bits`: 8-bit bytes to 5-bit symbols, padding the
final partial group with zero bits. -/
def U5Bits.bytes_to_u5_bits (data : List Nat) : List U5Bits := b2u5Go data 0 0

/-- The inner `while bits >= 8` loop of `u5_bits_to_bytes`; the pushed
byte is truncated by the `as u8` cast, hence `% 256`. -/
def u8push (acc : Nat) : Nat → Nat × List Nat
  | bits + 8 =>
    let p := u8push acc bits
    (p.1, ((acc >>> bits) % 256) :: p.2)
  | bits => (bits, [])

/-- The main loop of `U5Bits::u5_bits_to_bytes`. -/
def u52bGo : List U5Bits → Nat → Nat → List Nat
  | [], _, _ => []
  | s :: ss, acc, bits =>
    let acc2 := ((acc <<< 5) ||| s.val) % 2 ^ 32
    let p := u8push acc2 (bits + 5)
    p.2 ++ u52bGo ss acc2 p.1

/-- `U5Bits::u5_bits_to_bytes`: 5-bit symbols back to 8-bit bytes; any
residual bits that do not fill a byte are dropped. -/
def U5Bits.u5_bits_to_bytes (data : List U5Bits) : List Nat := u52bGo data 0 0

/-- One iteration of the `for` loop of `bech32_polymod`, with the inner
5-step generator loop unrolled.  All intermediate values stay below
`2 ^ 30 < 2 ^ 32`, so no `u32` truncation is needed. -/
def polymodStep (chk v : Nat) : Nat :=
  let top := chk >>> 25
  let c0 := ((chk &&& 0x1ffffff) <<< 5) ^^^ v
  let c1 := if (top >>> 0) &&& 1 = 1 then c0 ^^^ 0x3b6a57b2 else c0
  let c2 := if (top >>> 1) &&& 1 = 1 then c1 ^^^ 0x26508e6d else c1
  let c3 := if (top >>> 2) &&& 1 = 1 then c2 ^^^ 0x1ea119fa else c2
  let c4 := if (top >>> 3) &&& 1 = 1 then c3 ^^^ 0x3d4233dd else c3
  if (top >>> 4) &&& 1 = 1 then c4 ^^^ 0x2a1462b3 else c4

/-- `bech32_polymod`. -/
def bech32_polymod (values : List U5Bits) : Nat :=
  values.foldl (fun chk v => polymodStep chk v.val) 1

/-- The checksum seed built inline by `bech32_checksum`: high 3 bits of
each hrp byte, a zero separator, then the low 5 bits of each hrp byte
(the `as u8` cast is the `% 256`). -/
def hrp_expand (hrp : List Char) : List U5Bits :=
  hrp.map (fun ch => (⟨(ch.toNat % 256) >>> 5⟩ : U5Bits))
    ++ [⟨0⟩] ++ hrp.map (fun ch => (⟨(ch.toNat % 256) &&& 31⟩ : U5Bits))

/-- `bech32_checksum`: polymod over seed ++ data ++ six zero symbols,
XOR 1, split into six 5-bit big-endian groups. -/
def bech32_checksum (hrp : List Char) (data : List U5Bits) : List U5Bits :=
  let values := hrp_expand hrp ++ data ++ List.replicate 6 (⟨0⟩ : U5Bits)
  let polymod := bech32_polymod values ^^^ 1
  (List.range 6).map (fun i => (⟨(polymod >>> (5 * (5 - i))) &&& 31⟩ : U5Bits))

/-- `bech32_encode`: hrp, separator, data and checksum mapped through
the alphabet. -/
def bech32_encode (hrp : List Char) (data : List U5Bits) : List Char :=
  hrp ++ ['1'] ++ (data ++ bech32_checksum hrp data).map U5Bits.to_char

end Bolt11Forge

namespace Bolt11Forge

/-! ### Generic bit-arithmetic helpers -/

theorem and31_eq_mod (x : Nat) : x &&& 31 = x % 32 := by
  have h := Nat.and_pow_two_sub_one_eq_mod x 5
  norm_num at h
  exact h

theorem shiftLeft_or_of_lt {b k : Nat} (a : Nat) (hb : b < 2 ^ k) :
    (a <<< k) ||| b = a * 2 ^ k + b := by
  rw [Nat.shiftLeft_eq, Nat.mul_comm a (2 ^ k), ← Nat.mul_add_lt_is_or hb,
    Nat.mul_comm (2 ^ k) a]

theorem shiftLeft_xor_of_lt {b k : Nat} (a : Nat) (hb : b < 2 ^ k) :
    (a <<< k) ^^^ b = a * 2 ^ k + b := by
  rw [← shiftLeft_or_of_lt a hb]
  apply Nat.eq_of_testBit_eq
  intro j
  simp only [Nat.testBit_xor, Nat.testBit_or, Nat.testBit_shiftLeft]
  rcases Nat.lt_or_ge j k with h | h
  · simp [Nat.not_le.mpr h]
  · have hbj : b.testBit j = false :=
      Nat.testBit_lt_two_pow (lt_of_lt_of_le hb (Nat.pow_le_pow_right (by norm_num) h))
    simp [hbj]

/-! ### C9: the U5Bits construction invariant -/

theorem position_lt_length (p : Char → Bool) :
    ∀ (l : List Char) (i : Nat), position p l = some i → i < l.length := by
  intro l
  induction l with
  | nil => intro i h; simp [position] at h
  | cons x xs ih =>
    intro i h
    simp only [position] at h
    split at h
    · simp at h
      subst h
      simp
    · rcases Option.map_eq_some'.mp h with ⟨j, hj, hij⟩
      have := ih j hj
      simp only [List.length_cons]
      omega

theorem u5push_low (acc bits : Nat) (h : bits < 5) : u5push acc bits = (bits, []) := by
  interval_cases bits <;> rfl

theorem u5push_succ (acc bits : Nat) :
    u5push acc (bits + 5) =
      ((u5push acc bits).1, ⟨(acc >>> bits) &&& 31⟩ :: (u5push acc bits).2) := rfl

theorem u8push_low (acc bits : Nat) (h : bits < 8) : u8push acc bits = (bits, []) := by
  interval_cases bits <;> rfl

theorem u8push_succ (acc bits : Nat) :
    u8push acc (bits + 8) =
      ((u8push acc bits).1, ((acc >>> bits) % 256) :: (u8push acc bits).2) := rfl

theorem u5push_val_lt :
    ∀ (bits acc : Nat) (u : U5Bits), u ∈ (u5push acc bits).2 → u.val < 32 := by
  intro bits
  induction bits using Nat.strong_induction_on with
  | _ bits ih =>
    intro acc u hu
    rcases Nat.lt_or_ge bits 5 with h5 | h5
    · rw [u5push_low acc bits h5] at hu
      simp at hu
    · obtain ⟨b, rfl⟩ : ∃ b, bits = b + 5 := ⟨bits - 5, by omega⟩
      rw [u5push_succ] at hu
      rcases List.mem_cons.mp hu with h | h
      · subst h
        show (acc >>> b) &&& 31 < 32
        have := Nat.and_le_right (n := acc >>> b) (m := 31)
        omega
      · exact ih b (by omega) acc u h

theorem b2u5Go_val_lt :
    ∀ (xs : List Nat) (acc bits : Nat) (u : U5Bits), u ∈ b2u5Go xs acc bits → u.val < 32 := by
  intro xs
  induction xs with
  | nil =>
    intro acc bits u hu
    simp only [b2u5Go] at hu
    split at hu
    · rcases List.mem_singleton.mp hu with h
      subst h
      show (acc <<< (5 - bits)) &&& 31 < 32
      have := Nat.and_le_right (n := acc <<< (5 - bits)) (m := 31)
      omega
    · simp at hu
  | cons x xs ih =>
    intro acc bits u hu
    simp only [b2u5Go] at hu
    rcases List.mem_append.mp hu with h | h
    · exact u5push_val_lt _ _ u h
    · exact ih _ _ u h

/-- C9: every safe construction path of `U5Bits` yields a symbol in
[0,31]: `new` and `try_from` reject values above 31 and accept values
at most 31 unchanged, `from_char` only yields indices of the
32-character alphabet, and `bytes_to_u5_bits` masks every emitted
group to 5 bits. -/
theorem c9_u5bits_invariant (v w : Nat) (hv : 31 < v) (hw : w ≤ 31) (c : Char) (u : U5Bits)
    (hc : U5Bits.from_char c = some u) (data : List Nat) (s : U5Bits)
    (hs : s ∈ U5Bits.bytes_to_u5_bits data) :
    U5Bits.new v = none ∧ u5_try_from v = Except.error v ∧
    U5Bits.new w = some ⟨w⟩ ∧ u5_try_from w = Except.ok ⟨w⟩ ∧
    u.val < 32 ∧ s.val < 32 := by
  refine ⟨?_, ?_, ?_, ?_, ?_, ?_⟩
  · simp [U5Bits.new, Nat.not_le.mpr hv]
  · simp only [u5_try_from]
    rw [if_neg (by omega)]
  · simp [U5Bits.new, hw]
  · simp [u5_try_from, hw]
  · rcases Option.map_eq_some'.mp hc with ⟨i, hi, hiu⟩
    have hlt := position_lt_length _ CHARSET i hi
    have hlen : CHARSET.length = 32 := by decide
    subst hiu
    simpa [hlen] using hlt
  · exact b2u5Go_val_lt data 0 0 s hs

/-- C9 witness: concrete instantiation of every conjunct. -/
theorem c9_witness :
    U5Bits.new 32 = none ∧ u5_try_from 32 = Except.error 32 ∧
    U5Bits.new 31 = some ⟨31⟩ ∧ u5_try_from 31 = Except.ok ⟨31⟩ ∧
    (⟨0⟩ : U5Bits).val < 32 ∧ (⟨31⟩ : U5Bits).val < 32 :=
  c9_u5bits_invariant 32 31 (by decide) (by decide) 'q' ⟨0⟩ (by decide) [255] ⟨31⟩
    (by decide)

end Bolt11Forge

namespace Bolt11Forge

/-! ### C1: checksums created by bech32_checksum are accepted -/

theorem xor_left_comm (a b c : Nat) : a ^^^ (b ^^^ c) = b ^^^ (a ^^^ c) := by
  rw [← Nat.xor_assoc, Nat.xor_comm a b, Nat.xor_assoc]

theorem and1_eq_one_iff_testBit (x i : Nat) :
    ((x >>> i) &&& 1 = 1) ↔ x.testBit i = true := by
  simp [Nat.testBit_to_div_mod, Nat.and_one_is_mod, Nat.shiftRight_eq_div_pow]

theorem xor_shiftRight (a b k : Nat) : (a ^^^ b) >>> k = (a >>> k) ^^^ (b >>> k) := by
  apply Nat.eq_of_testBit_eq
  intro j
  simp

theorem xor_shiftLeft (a b k : Nat) : (a ^^^ b) <<< k = (a <<< k) ^^^ (b <<< k) := by
  apply Nat.eq_of_testBit_eq
  intro j
  by_cases h : k ≤ j <;> simp [Nat.testBit_shiftLeft, h]

/-- The XOR of the generator constants selected by the set bits of
`top`; proof-side restatement of the inner loop of `bech32_polymod`. -/
def genMask (top : Nat) : Nat :=
  (if top.testBit 0 then 0x3b6a57b2 else 0) ^^^
  (if top.testBit 1 then 0x26508e6d else 0) ^^^
  (if top.testBit 2 then 0x1ea119fa else 0) ^^^
  (if top.testBit 3 then 0x3d4233dd else 0) ^^^
  (if top.testBit 4 then 0x2a1462b3 else 0)

theorem polymodStep_eq (chk v : Nat) :
    polymodStep chk v = (((chk &&& 0x1ffffff) <<< 5) ^^^ genMask (chk >>> 25)) ^^^ v := by
  simp only [polymodStep, genMask, and1_eq_one_iff_testBit]
  split_ifs <;>
    simp [Nat.xor_assoc, Nat.xor_comm, xor_left_comm]

theorem polymodStep_xor_v (chk v : Nat) : polymodStep chk v = polymodStep chk 0 ^^^ v := by
  rw [polymodStep_eq, polymodStep_eq]
  simp

theorem genMask_lt (top : Nat) : genMask top < 2 ^ 30 := by
  unfold genMask
  split_ifs <;> decide

theorem polymodStep_lt (chk : Nat) {v : Nat} (hv : v < 2 ^ 30) :
    polymodStep chk v < 2 ^ 30 := by
  rw [polymodStep_eq]
  apply Nat.xor_lt_two_pow _ hv
  apply Nat.xor_lt_two_pow _ (genMask_lt _)
  rw [Nat.shiftLeft_eq]
  have h := Nat.and_le_right (n := chk) (m := 0x1ffffff)
  calc (chk &&& 0x1ffffff) * 2 ^ 5 ≤ 0x1ffffff * 2 ^ 5 :=
        Nat.mul_le_mul_right _ h
    _ < 2 ^ 30 := by norm_num

theorem genMask_xor (a b : Nat) : genMask (a ^^^ b) = genMask a ^^^ genMask b := by
  have hif : ∀ (p q : Bool) (G : Nat),
      (if (p ^^ q) = true then G else 0) =
        (if p = true then G else 0) ^^^ (if q = true then G else 0) := by
    intro p q G
    cases p <;> cases q <;> simp
  simp only [genMask, Nat.testBit_xor, hif]
  simp [Nat.xor_assoc, Nat.xor_comm, xor_left_comm]

theorem polymodStep_shift (chk d v : Nat) (hd : d < 2 ^ 25) :
    polymodStep (chk ^^^ d) v = polymodStep chk v ^^^ (d <<< 5) := by
  have h1 : (chk ^^^ d) >>> 25 = chk >>> 25 := by
    rw [xor_shiftRight]
    have : d >>> 25 = 0 := by
      rw [Nat.shiftRight_eq_div_pow]
      exact Nat.div_eq_of_lt hd
    simp [this]
  have h2 : (chk ^^^ d) &&& 0x1ffffff = (chk &&& 0x1ffffff) ^^^ d := by
    rw [Nat.and_xor_distrib_right]
    congr 1
    exact Nat.and_pow_two_sub_one_of_lt_two_pow hd
  rw [polymodStep_eq, polymodStep_eq, h1, h2, xor_shiftLeft]
  simp [Nat.xor_assoc, Nat.xor_comm, xor_left_comm]

end Bolt11Forge

namespace Bolt11Forge

/-- Value of a big-endian digit list in the given base. -/
def digitsVal (base : Nat) (l : List Nat) : Nat := l.foldl (fun a x => a * base + x) 0

theorem digitsVal_go (base : Nat) :
    ∀ (l : List Nat) (a : Nat),
      l.foldl (fun a x => a * base + x) a = a * base ^ l.length + digitsVal base l := by
  intro l
  induction l with
  | nil => intro a; simp [digitsVal]
  | cons x xs ih =>
    intro a
    have hx : digitsVal base (x :: xs) = x * base ^ xs.length + digitsVal base xs := by
      show List.foldl _ (0 * base + x) xs = _
      rw [ih (0 * base + x)]
      ring
    simp only [List.foldl_cons, List.length_cons]
    rw [ih (a * base + x), hx]
    ring

theorem digitsVal_cons (base x : Nat) (xs : List Nat) :
    digitsVal base (x :: xs) = x * base ^ xs.length + digitsVal base xs := by
  show List.foldl _ (0 * base + x) xs = _
  rw [digitsVal_go base xs (0 * base + x)]
  ring

theorem digitsVal_append (base : Nat) (xs ys : List Nat) :
    digitsVal base (xs ++ ys) =
      digitsVal base xs * base ^ ys.length + digitsVal base ys := by
  unfold digitsVal
  rw [List.foldl_append, digitsVal_go]
  rfl

theorem digitsVal_lt (base : Nat) (_hb : 0 < base) :
    ∀ (xs : List Nat), (∀ x ∈ xs, x < base) → digitsVal base xs < base ^ xs.length := by
  intro xs
  induction xs with
  | nil => intro _; simp [digitsVal]
  | cons x xs ih =>
    intro h
    rw [digitsVal_cons]
    have hx : x < base := h x (List.mem_cons_self _ _)
    have hxs := ih (fun y hy => h y (List.mem_cons_of_mem _ hy))
    simp only [List.length_cons, pow_succ]
    calc x * base ^ xs.length + digitsVal base xs
        < x * base ^ xs.length + base ^ xs.length := by omega
      _ = (x + 1) * base ^ xs.length := by ring
      _ ≤ base * base ^ xs.length := Nat.mul_le_mul_right _ (by omega)
      _ = base ^ xs.length * base := by ring

/-- Folding `polymodStep` from a start state. -/
def pmFold (s : Nat) (vs : List U5Bits) : Nat :=
  vs.foldl (fun chk v => polymodStep chk v.val) s

theorem bech32_polymod_eq_pmFold (vs : List U5Bits) : bech32_polymod vs = pmFold 1 vs := rfl

theorem pmFold_append (s : Nat) (xs ys : List U5Bits) :
    pmFold s (xs ++ ys) = pmFold (pmFold s xs) ys := by
  unfold pmFold
  exact List.foldl_append _ _ _ _

theorem pmFold_zeros6_lt (s : Nat) : pmFold s (List.replicate 6 ⟨0⟩) < 2 ^ 30 := by
  show polymodStep _ (U5Bits.val ⟨0⟩) < 2 ^ 30
  exact polymodStep_lt _ (by norm_num)

theorem pmFold_shift :
    ∀ (vs : List U5Bits) (s d : Nat), d * 2 ^ (5 * vs.length) < 2 ^ 30 →
      pmFold (s ^^^ d) vs = pmFold s vs ^^^ (d <<< (5 * vs.length)) := by
  intro vs
  induction vs with
  | nil => intro s d _; simp [pmFold]
  | cons v vs ih =>
    intro s d hd
    have hpow : (32 : Nat) ≤ 2 ^ (5 * (vs.length + 1)) := by
      have : (32 : Nat) = 2 ^ 5 := by norm_num
      rw [this]
      exact Nat.pow_le_pow_right (by norm_num) (by omega)
    have hd32 : d * 32 < 2 ^ 30 :=
      lt_of_le_of_lt (Nat.mul_le_mul_left d hpow) (by simpa using hd)
    have hd25 : d < 2 ^ 25 := by
      have h32 : (2 : Nat) ^ 30 = 2 ^ 25 * 32 := by norm_num
      rw [h32] at hd32
      exact Nat.lt_of_mul_lt_mul_right hd32
    have hexp : 5 + 5 * vs.length = 5 * (vs.length + 1) := by ring
    have hih : (d <<< 5) * 2 ^ (5 * vs.length) < 2 ^ 30 := by
      rw [Nat.shiftLeft_eq]
      calc d * 2 ^ 5 * 2 ^ (5 * vs.length) = d * 2 ^ (5 + 5 * vs.length) := by
            rw [Nat.mul_assoc, ← pow_add]
        _ = d * 2 ^ (5 * (vs.length + 1)) := by rw [hexp]
        _ < 2 ^ 30 := by simpa using hd
    have hcomp : (d <<< 5) <<< (5 * vs.length) = d <<< (5 * (vs.length + 1)) := by
      rw [Nat.shiftLeft_eq, Nat.shiftLeft_eq, Nat.shiftLeft_eq, Nat.mul_assoc, ← pow_add,
        hexp]
    show pmFold (polymodStep (s ^^^ d) v.val) vs =
      pmFold (polymodStep s v.val) vs ^^^ d <<< (5 * (vs.length + 1))
    rw [polymodStep_shift s d v.val hd25, ih (polymodStep s v.val) (d <<< 5) hih, hcomp]

theorem pmFold_insert :
    ∀ (cs : List U5Bits) (s : Nat), (∀ c ∈ cs, c.val < 32) → cs.length ≤ 6 →
      pmFold s cs =
        pmFold s (List.replicate cs.length ⟨0⟩) ^^^ digitsVal 32 (cs.map U5Bits.val) := by
  intro cs
  induction cs with
  | nil => intro s _ _; simp [pmFold, digitsVal]
  | cons c cs ih =>
    intro s h hlen
    have hc : c.val < 32 := h c (List.mem_cons_self _ _)
    have hcs : ∀ x ∈ cs, x.val < 32 := fun x hx => h x (List.mem_cons_of_mem _ hx)
    have hlen5 : cs.length ≤ 5 := by simpa using hlen
    have hV : digitsVal 32 (cs.map U5Bits.val) < 2 ^ (5 * cs.length) := by
      have := digitsVal_lt 32 (by norm_num) (cs.map U5Bits.val)
        (by intro x hx; rcases List.mem_map.mp hx with ⟨u, hu, rfl⟩; exact hcs u hu)
      rw [Nat.pow_mul]
      simpa using this
    have hshift : c.val * 2 ^ (5 * cs.length) < 2 ^ 30 := by
      calc c.val * 2 ^ (5 * cs.length) ≤ 31 * 2 ^ 25 := by
            apply Nat.mul_le_mul (by omega)
            exact Nat.pow_le_pow_right (by norm_num) (by omega)
        _ < 2 ^ 30 := by norm_num
    show pmFold (polymodStep s c.val) cs = _
    rw [polymodStep_xor_v s c.val, pmFold_shift cs (polymodStep s 0) c.val hshift,
      ih (polymodStep s 0) hcs (by omega)]
    have h32 : (32 : Nat) ^ cs.length = 2 ^ (5 * cs.length) := by
      rw [Nat.pow_mul]
    have hpack : digitsVal 32 (U5Bits.val c :: cs.map U5Bits.val) =
        (c.val <<< (5 * cs.length)) ^^^ digitsVal 32 (cs.map U5Bits.val) := by
      rw [shiftLeft_xor_of_lt _ hV, digitsVal_cons]
      simp [List.length_map, h32]
    simp only [List.map_cons, List.length_cons, List.replicate_succ, hpack]
    show pmFold (polymodStep s (U5Bits.val ⟨0⟩)) _ ^^^ _ ^^^ _ = pmFold (polymodStep s 0) _ ^^^ _
    simp [Nat.xor_assoc, Nat.xor_comm, xor_left_comm]

end Bolt11Forge

namespace Bolt11Forge

theorem range6_split (q : Nat) :
    (List.range 6).map (fun i => (⟨(q >>> (5 * (5 - i))) &&& 31⟩ : U5Bits)) =
      [⟨q / 2 ^ 25 % 32⟩, ⟨q / 2 ^ 20 % 32⟩, ⟨q / 2 ^ 15 % 32⟩,
       ⟨q / 2 ^ 10 % 32⟩, ⟨q / 2 ^ 5 % 32⟩, ⟨q % 32⟩] := by
  have h : List.range 6 = [0, 1, 2, 3, 4, 5] := rfl
  rw [h]
  simp [and31_eq_mod, Nat.shiftRight_eq_div_pow]

theorem digits30 (q : Nat) (hq : q < 2 ^ 30) :
    digitsVal 32 [q / 2 ^ 25 % 32, q / 2 ^ 20 % 32, q / 2 ^ 15 % 32,
      q / 2 ^ 10 % 32, q / 2 ^ 5 % 32, q % 32] = q := by
  simp only [digitsVal, List.foldl]
  norm_num at hq ⊢
  omega

theorem pm_accept (S q : Nat) (hq : q < 2 ^ 30)
    (hS : pmFold S (List.replicate 6 ⟨0⟩) ^^^ 1 = q) :
    pmFold S [⟨q / 2 ^ 25 % 32⟩, ⟨q / 2 ^ 20 % 32⟩, ⟨q / 2 ^ 15 % 32⟩,
      ⟨q / 2 ^ 10 % 32⟩, ⟨q / 2 ^ 5 % 32⟩, ⟨q % 32⟩] = 1 := by
  rw [pmFold_insert _ S ?h1 ?h2]
  case h1 =>
    intro c hc
    simp at hc
    rcases hc with h | h | h | h | h | h <;> (subst h; exact Nat.mod_lt _ (by norm_num))
  case h2 => simp
  have hlen6 : List.length [(⟨q / 2 ^ 25 % 32⟩ : U5Bits), ⟨q / 2 ^ 20 % 32⟩,
      ⟨q / 2 ^ 15 % 32⟩, ⟨q / 2 ^ 10 % 32⟩, ⟨q / 2 ^ 5 % 32⟩, ⟨q % 32⟩] = 6 := rfl
  have hmapv : List.map U5Bits.val [(⟨q / 2 ^ 25 % 32⟩ : U5Bits), ⟨q / 2 ^ 20 % 32⟩,
      ⟨q / 2 ^ 15 % 32⟩, ⟨q / 2 ^ 10 % 32⟩, ⟨q / 2 ^ 5 % 32⟩, ⟨q % 32⟩] =
      [q / 2 ^ 25 % 32, q / 2 ^ 20 % 32, q / 2 ^ 15 % 32,
       q / 2 ^ 10 % 32, q / 2 ^ 5 % 32, q % 32] := rfl
  rw [hlen6, hmapv, digits30 q hq, ← hS]
  exact Nat.xor_cancel_left _ _

/-- C1: every checksum created by `bech32_checksum` is accepted: running
`bech32_polymod` over the expanded prefix, the data and the six
checksum symbols yields exactly 1, for every prefix string and every
symbol sequence. -/
theorem c1_created_checksum_verifies (hrp : List Char) (data : List U5Bits) :
    bech32_polymod (hrp_expand hrp ++ data ++ bech32_checksum hrp data) = 1 := by
  have hp30 : bech32_polymod (hrp_expand hrp ++ data ++ List.replicate 6 ⟨0⟩) < 2 ^ 30 := by
    rw [bech32_polymod_eq_pmFold, pmFold_append, pmFold_append]
    exact pmFold_zeros6_lt _
  have hq30 : bech32_polymod (hrp_expand hrp ++ data ++ List.replicate 6 ⟨0⟩) ^^^ 1 < 2 ^ 30 :=
    Nat.xor_lt_two_pow hp30 (by norm_num)
  have hcs : bech32_checksum hrp data =
      (fun q => ([⟨q / 2 ^ 25 % 32⟩, ⟨q / 2 ^ 20 % 32⟩, ⟨q / 2 ^ 15 % 32⟩,
        ⟨q / 2 ^ 10 % 32⟩, ⟨q / 2 ^ 5 % 32⟩, ⟨q % 32⟩] : List U5Bits))
        (bech32_polymod (hrp_expand hrp ++ data ++ List.replicate 6 ⟨0⟩) ^^^ 1) :=
    range6_split _
  rw [bech32_polymod_eq_pmFold, pmFold_append, pmFold_append]
  simp only [hcs]
  exact pm_accept _ _ hq30
    (by rw [bech32_polymod_eq_pmFold, pmFold_append, pmFold_append])

end Bolt11Forge

namespace Bolt11Forge

/-! ### C8: any single-symbol substitution breaks the checksum -/

/-- The GF(2)-linear effect of one `polymodStep` on a state difference. -/
def polyDelta (d : Nat) : Nat := ((d &&& 0x1ffffff) <<< 5) ^^^ genMask (d >>> 25)

theorem polymodStep_xor_delta (chk d v : Nat) :
    polymodStep (chk ^^^ d) v = polymodStep chk v ^^^ polyDelta d := by
  rw [polymodStep_eq, polymodStep_eq, polyDelta, Nat.and_xor_distrib_right, xor_shiftLeft,
    xor_shiftRight, genMask_xor]
  simp [Nat.xor_assoc, Nat.xor_comm, xor_left_comm]

theorem polyDelta_lt (d : Nat) : polyDelta d < 2 ^ 30 := by
  apply Nat.xor_lt_two_pow _ (genMask_lt _)
  rw [Nat.shiftLeft_eq]
  have h := Nat.and_le_right (n := d) (m := 0x1ffffff)
  calc (d &&& 0x1ffffff) * 2 ^ 5 ≤ 0x1ffffff * 2 ^ 5 := Nat.mul_le_mul_right _ h
    _ < 2 ^ 30 := by norm_num

theorem genMask_low_bits :
    ∀ t < 32, genMask t &&& 31 = 0 → t = 0 := by decide

theorem polyDelta_ne_zero (d : Nat) (hd0 : d ≠ 0) (hd : d < 2 ^ 30) : polyDelta d ≠ 0 := by
  intro h
  have hsplit : (d &&& 0x1ffffff) <<< 5 = genMask (d >>> 25) := Nat.xor_eq_zero.mp h
  have htop : d >>> 25 < 32 := by
    rw [Nat.shiftRight_eq_div_pow]
    rw [Nat.div_lt_iff_lt_mul (by norm_num)]
    calc d < 2 ^ 30 := hd
      _ = 32 * 2 ^ 25 := by norm_num
    
  have hlow0 : genMask (d >>> 25) &&& 31 = 0 := by
    rw [← hsplit, and31_eq_mod, Nat.shiftLeft_eq]
    exact Nat.mul_mod_left _ _
  have htz : d >>> 25 = 0 := genMask_low_bits _ htop hlow0
  have hg0 : genMask 0 = 0 := by decide
  rw [htz, hg0] at hsplit
  have hand : d &&& 0x1ffffff = 0 := by
    rw [Nat.shiftLeft_eq] at hsplit
    omega
  have hmod : d % 2 ^ 25 = 0 := by
    have := Nat.and_pow_two_sub_one_eq_mod d 25
    norm_num at this ⊢
    omega
  have hdiv : d / 2 ^ 25 = 0 := by
    rw [Nat.shiftRight_eq_div_pow] at htz
    exact htz
  apply hd0
  norm_num at hmod hdiv
  omega

theorem pmFold_delta_ne :
    ∀ (w : List U5Bits) (s d : Nat), d ≠ 0 → d < 2 ^ 30 →
      pmFold (s ^^^ d) w ≠ pmFold s w := by
  intro w
  induction w with
  | nil =>
    intro s d hd0 _ h
    apply hd0
    have : s ^^^ d = s ^^^ 0 := by simpa using h
    exact Nat.xor_right_inj.mp this
  | cons v w ih =>
    intro s d hd0 hd
    show pmFold (polymodStep (s ^^^ d) v.val) w ≠ pmFold (polymodStep s v.val) w
    rw [polymodStep_xor_delta]
    exact ih _ (polyDelta d) (polyDelta_ne_zero d hd0 hd) (polyDelta_lt d)

/-- C8: in any symbol sequence accepted by the checksum (polymod = 1),
replacing one symbol by any different 5-bit symbol, at any position,
makes the polymod differ from 1: every single-character substitution
within the alphabet is caught. -/
theorem c8_single_substitution_caught (u w : List U5Bits) (a b : U5Bits)
    (ha : a.val < 32) (hb : b.val < 32) (hab : a.val ≠ b.val)
    (hvalid : bech32_polymod (u ++ a :: w) = 1) :
    bech32_polymod (u ++ b :: w) ≠ 1 := by
  intro hbad
  rw [bech32_polymod_eq_pmFold, pmFold_append] at hvalid hbad
  have hstep : polymodStep (pmFold 1 u) b.val =
      polymodStep (pmFold 1 u) a.val ^^^ (a.val ^^^ b.val) := by
    rw [polymodStep_xor_v _ a.val, polymodStep_xor_v _ b.val, Nat.xor_assoc,
      Nat.xor_cancel_left]
  have hd0 : a.val ^^^ b.val ≠ 0 := Nat.xor_ne_zero.mpr hab
  have hdlt : a.val ^^^ b.val < 2 ^ 30 :=
    lt_of_lt_of_le (Nat.xor_lt_two_pow (n := 5) (by simpa using ha) (by simpa using hb))
      (Nat.pow_le_pow_right (by norm_num) (by norm_num))
  have hne := pmFold_delta_ne w (polymodStep (pmFold 1 u) a.val) (a.val ^^^ b.val) hd0 hdlt
  apply hne
  show pmFold (polymodStep (pmFold 1 u) a.val ^^^ (a.val ^^^ b.val)) w = _
  rw [← hstep]
  show pmFold (pmFold 1 u) (b :: w) = pmFold (pmFold 1 u) (a :: w)
  rw [hvalid, hbad]

/-- C8 witness: the empty-hrp checksummed sequence is accepted, and
changing its first checksum symbol from 15 to 16 is rejected. -/
theorem c8_witness :
    bech32_polymod ([⟨0⟩] ++ (⟨16⟩ : U5Bits) :: [⟨29⟩, ⟨15⟩, ⟨26⟩, ⟨11⟩, ⟨7⟩]) ≠ 1 :=
  c8_single_substitution_caught [⟨0⟩] [⟨29⟩, ⟨15⟩, ⟨26⟩, ⟨11⟩, ⟨7⟩] ⟨15⟩ ⟨16⟩
    (by decide) (by decide) (by decide) (by decide)

end Bolt11Forge

namespace Bolt11Forge

/-! ### C2: the 8-to-5 / 5-to-8 repacking round-trip -/

theorem u5push_spec : ∀ (bits acc : Nat),
    (u5push acc bits).1 = bits % 5 ∧
    (u5push acc bits).2.length = bits / 5 ∧
    digitsVal 32 ((u5push acc bits).2.map U5Bits.val) =
      (acc % 2 ^ bits) / 2 ^ (bits % 5) := by
  intro bits
  induction bits using Nat.strong_induction_on with
  | _ bits ih =>
    intro acc
    rcases Nat.lt_or_ge bits 5 with h5 | h5
    · rw [u5push_low acc bits h5]
      refine ⟨by omega, by simp; omega, ?_⟩
      simp only [List.map_nil]
      rw [Nat.mod_eq_of_lt h5]
      have : acc % 2 ^ bits < 2 ^ bits := Nat.mod_lt _ (Nat.pos_pow_of_pos _ (by norm_num))
      rw [Nat.div_eq_of_lt this]
      rfl
    · obtain ⟨b, rfl⟩ : ∃ b, bits = b + 5 := ⟨bits - 5, by omega⟩
      obtain ⟨ih1, ih2, ih3⟩ := ih b (by omega) acc
      rw [u5push_succ]
      have hm : (b + 5) % 5 = b % 5 := by omega
      refine ⟨by rw [ih1, hm], by simp only [List.length_cons, ih2]; omega, ?_⟩
      simp only [List.map_cons]
      rw [digitsVal_cons, List.length_map, ih2, ih3]
      rw [and31_eq_mod, Nat.shiftRight_eq_div_pow, hm]
      -- split the (b+5)-bit window into the high 5 bits and the low b bits
      have hsplit : acc % 2 ^ (b + 5) = acc % 2 ^ b + 2 ^ b * (acc / 2 ^ b % 32) := by
        have h1 : (2:Nat) ^ (b + 5) = 2 ^ b * 2 ^ 5 := pow_add 2 b 5
        rw [h1]
        have := Nat.mod_mul (a := 2 ^ b) (b := 2 ^ 5) (x := acc)
        norm_num at this ⊢
        omega
      rw [hsplit]
      have h2b : (2:Nat) ^ b = 2 ^ (b - b % 5) * 2 ^ (b % 5) := by
        rw [← pow_add]
        congr 1
        omega
      have h32pow : (32:Nat) ^ (b / 5) = 2 ^ (b - b % 5) := by
        have h25 : (32:Nat) = 2 ^ 5 := by norm_num
        rw [h25, ← Nat.pow_mul]
        congr 1
        omega
      generalize acc % 2 ^ b = X
      generalize acc / 2 ^ b % 32 = v
      rw [h32pow, h2b]
      have hrw : X + 2 ^ (b - b % 5) * 2 ^ (b % 5) * v =
          X + (2 ^ (b - b % 5) * v) * 2 ^ (b % 5) := by ring
      rw [hrw, Nat.add_mul_div_right _ _ (Nat.pos_pow_of_pos _ (by norm_num))]
      ring

end Bolt11Forge

namespace Bolt11Forge

theorem u8push_spec : ∀ (bits acc : Nat),
    (u8push acc bits).1 = bits % 8 ∧
    (u8push acc bits).2.length = bits / 8 ∧
    digitsVal 256 (u8push acc bits).2 = (acc % 2 ^ bits) / 2 ^ (bits % 8) := by
  intro bits
  induction bits using Nat.strong_induction_on with
  | _ bits ih =>
    intro acc
    rcases Nat.lt_or_ge bits 8 with h8 | h8
    · rw [u8push_low acc bits h8]
      refine ⟨by omega, by simp; omega, ?_⟩
      rw [Nat.mod_eq_of_lt h8]
      have : acc % 2 ^ bits < 2 ^ bits := Nat.mod_lt _ (Nat.pos_pow_of_pos _ (by norm_num))
      rw [Nat.div_eq_of_lt this]
      rfl
    · obtain ⟨b, rfl⟩ : ∃ b, bits = b + 8 := ⟨bits - 8, by omega⟩
      obtain ⟨ih1, ih2, ih3⟩ := ih b (by omega) acc
      rw [u8push_succ]
      have hm : (b + 8) % 8 = b % 8 := by omega
      refine ⟨by rw [ih1, hm], by simp only [List.length_cons, ih2]; omega, ?_⟩
      rw [digitsVal_cons, ih2, ih3]
      rw [Nat.shiftRight_eq_div_pow, hm]
      have hsplit : acc % 2 ^ (b + 8) = acc % 2 ^ b + 2 ^ b * (acc / 2 ^ b % 256) := by
        have h1 : (2:Nat) ^ (b + 8) = 2 ^ b * 2 ^ 8 := pow_add 2 b 8
        rw [h1]
        have := Nat.mod_mul (a := 2 ^ b) (b := 2 ^ 8) (x := acc)
        norm_num at this ⊢
        omega
      rw [hsplit]
      have h2b : (2:Nat) ^ b = 2 ^ (b - b % 8) * 2 ^ (b % 8) := by
        rw [← pow_add]
        congr 1
        omega
      have h256pow : (256:Nat) ^ (b / 8) = 2 ^ (b - b % 8) := by
        have h28 : (256:Nat) = 2 ^ 8 := by norm_num
        rw [h28, ← Nat.pow_mul]
        congr 1
        omega
      generalize acc % 2 ^ b = X
      generalize acc / 2 ^ b % 256 = v
      rw [h256pow, h2b]
      have hrw : X + 2 ^ (b - b % 8) * 2 ^ (b % 8) * v =
          X + (2 ^ (b - b % 8) * v) * 2 ^ (b % 8) := by ring
      rw [hrw, Nat.add_mul_div_right _ _ (Nat.pos_pow_of_pos _ (by norm_num))]
      ring

/-- Number of zero bits appended to left-align a bit count to the next
multiple of 5. -/
def pad5 (t : Nat) : Nat := (5 - t % 5) % 5

theorem b2u5Go_nil (acc bits : Nat) :
    b2u5Go [] acc bits = if 0 < bits then [⟨(acc <<< (5 - bits)) &&& 31⟩] else [] := rfl

theorem b2u5Go_cons (x : Nat) (xs : List Nat) (acc bits : Nat) :
    b2u5Go (x :: xs) acc bits =
      (u5push (((acc <<< 8) ||| x) % 2 ^ 32) (bits + 8)).2 ++
        b2u5Go xs (((acc <<< 8) ||| x) % 2 ^ 32)
          (u5push (((acc <<< 8) ||| x) % 2 ^ 32) (bits + 8)).1 := rfl

theorem repack_assemble (A c d m V : Nat) :
    A / 2 ^ m * (2 ^ m * (c * d)) + ((A % 2 ^ m) * c + V) * d = (A * c + V) * d := by
  have h := Nat.div_add_mod A (2 ^ m)
  calc A / 2 ^ m * (2 ^ m * (c * d)) + ((A % 2 ^ m) * c + V) * d
      = (2 ^ m * (A / 2 ^ m) + A % 2 ^ m) * c * d + V * d := by ring
    _ = (A * c + V) * d := by rw [h]; ring

theorem b2u5Go_spec : ∀ (xs : List Nat) (acc bits : Nat), bits < 5 →
    (∀ x ∈ xs, x < 256) →
    5 * (b2u5Go xs acc bits).length = bits + 8 * xs.length + pad5 (bits + 8 * xs.length) ∧
    digitsVal 32 ((b2u5Go xs acc bits).map U5Bits.val) =
      ((acc % 2 ^ bits) * 2 ^ (8 * xs.length) + digitsVal 256 xs) *
        2 ^ pad5 (bits + 8 * xs.length) := by
  intro xs
  induction xs with
  | nil =>
    intro acc bits hb _
    rw [b2u5Go_nil]
    simp only [List.length_nil, Nat.mul_zero, Nat.add_zero]
    rcases Nat.eq_zero_or_pos bits with h0 | h0
    · subst h0
      simp [pad5, digitsVal, Nat.mod_one]
    · rw [if_pos h0]
      have hpad : pad5 bits = 5 - bits := by
        simp only [pad5]
        omega
      rw [hpad]
      refine ⟨by simp only [List.length_singleton]; omega, ?_⟩
      have hd0 : digitsVal 256 ([] : List Nat) = 0 := rfl
      have hd32 : digitsVal 32 ([] : List Nat) = 0 := rfl
      simp only [List.map_cons, List.map_nil, hd0, pow_zero, Nat.mul_one, Nat.add_zero]
      rw [digitsVal_cons]
      simp only [List.length_nil, pow_zero, Nat.mul_one, hd32, Nat.add_zero]
      show (acc <<< (5 - bits)) &&& 31 = acc % 2 ^ bits * 2 ^ (5 - bits)
      rw [and31_eq_mod, Nat.shiftLeft_eq]
      have h5 : (32:Nat) = 2 ^ bits * 2 ^ (5 - bits) := by
        rw [← pow_add, (by omega : bits + (5 - bits) = 5)]
        norm_num
      rw [h5, Nat.mul_mod_mul_right]
  | cons x xs ih =>
    intro acc bits hb hbytes
    have hx : x < 256 := hbytes x (List.mem_cons_self _ _)
    have hxs : ∀ y ∈ xs, y < 256 := fun y hy => hbytes y (List.mem_cons_of_mem _ hy)
    rw [b2u5Go_cons]
    obtain ⟨s1, s2, s3⟩ := u5push_spec (bits + 8) (((acc <<< 8) ||| x) % 2 ^ 32)
    obtain ⟨r1, r2⟩ := ih (((acc <<< 8) ||| x) % 2 ^ 32)
      ((u5push (((acc <<< 8) ||| x) % 2 ^ 32) (bits + 8)).1) (by rw [s1]; omega) hxs
    -- the accumulator window
    have hacc2 : (((acc <<< 8) ||| x) % 2 ^ 32) % 2 ^ (bits + 8) =
        (acc % 2 ^ bits) * 256 + x := by
      rw [shiftLeft_or_of_lt acc (by simpa using hx : x < 2 ^ 8)]
      rw [Nat.mod_mod_of_dvd _ (pow_dvd_pow 2 (by omega : bits + 8 ≤ 32))]
      have hsplit : acc * 2 ^ 8 + x =
          2 ^ (bits + 8) * (acc / 2 ^ bits) + ((acc % 2 ^ bits) * 2 ^ 8 + x) := by
        have h := Nat.div_add_mod acc (2 ^ bits)
        calc acc * 2 ^ 8 + x = (2 ^ bits * (acc / 2 ^ bits) + acc % 2 ^ bits) * 2 ^ 8 + x := by
              rw [h]
          _ = (2 ^ bits * 2 ^ 8) * (acc / 2 ^ bits) + ((acc % 2 ^ bits) * 2 ^ 8 + x) := by
              ring
          _ = 2 ^ (bits + 8) * (acc / 2 ^ bits) + ((acc % 2 ^ bits) * 2 ^ 8 + x) := by
              rw [← pow_add]
      rw [hsplit, Nat.mul_add_mod]
      have hlt : (acc % 2 ^ bits) * 2 ^ 8 + x < 2 ^ (bits + 8) := by
        have hmod : acc % 2 ^ bits < 2 ^ bits := Nat.mod_lt _ (Nat.pos_pow_of_pos _ (by norm_num))
        rw [pow_add]
        calc (acc % 2 ^ bits) * 2 ^ 8 + x < (acc % 2 ^ bits) * 2 ^ 8 + 2 ^ 8 := by omega
          _ = (acc % 2 ^ bits + 1) * 2 ^ 8 := by ring
          _ ≤ 2 ^ bits * 2 ^ 8 := Nat.mul_le_mul_right _ (by omega)
      rw [Nat.mod_eq_of_lt hlt]
      norm_num
    rw [s1] at r1 r2
    have hpadeq : pad5 ((bits + 8) % 5 + 8 * xs.length) =
        pad5 (bits + 8 * (x :: xs).length) := by
      simp only [pad5, List.length_cons]
      omega
    constructor
    · rw [s1, List.length_append, Nat.mul_add, s2, r1, hpadeq]
      simp only [List.length_cons]
      omega
    · rw [List.map_append, digitsVal_append, List.length_map, s1, s3, r2]
      have hm2 : ((acc <<< 8 ||| x) % 2 ^ 32) % 2 ^ ((bits + 8) % 5) =
          ((acc % 2 ^ bits) * 256 + x) % 2 ^ ((bits + 8) % 5) := by
        rw [← hacc2,
          Nat.mod_mod_of_dvd _ (pow_dvd_pow 2 (by omega : (bits + 8) % 5 ≤ bits + 8))]
      rw [hacc2, hm2, hpadeq]
      have hlen32 : (32:Nat) ^ (b2u5Go xs ((acc <<< 8 ||| x) % 2 ^ 32)
            ((bits + 8) % 5)).length =
          2 ^ ((bits + 8) % 5) * (2 ^ (8 * xs.length) *
            2 ^ pad5 (bits + 8 * (x :: xs).length)) := by
        have hL : ∀ L : Nat, (32:Nat) ^ L = 2 ^ (5 * L) := by
          intro L
          rw [Nat.pow_mul]
        rw [hL, ← pow_add, ← pow_add]
        congr 1
        rw [← hpadeq]
        omega
      rw [hlen32, repack_assemble, digitsVal_cons]
      have h256L : (256:Nat) ^ xs.length = 2 ^ (8 * xs.length) := by
        have h28 : (256:Nat) = 2 ^ 8 := by norm_num
        rw [h28, ← Nat.pow_mul]
      have h8L1 : (2:Nat) ^ (8 * (x :: xs).length) = 256 * 2 ^ (8 * xs.length) := by
        simp only [List.length_cons]
        rw [(by ring : 8 * (xs.length + 1) = 8 + 8 * xs.length), pow_add]
        norm_num
      rw [h256L, h8L1]
      ring

end Bolt11Forge

namespace Bolt11Forge

theorem u8push_byte_lt :
    ∀ (bits acc : Nat) (y : Nat), y ∈ (u8push acc bits).2 → y < 256 := by
  intro bits
  induction bits using Nat.strong_induction_on with
  | _ bits ih =>
    intro acc y hy
    rcases Nat.lt_or_ge bits 8 with h8 | h8
    · rw [u8push_low acc bits h8] at hy
      simp at hy
    · obtain ⟨b, rfl⟩ : ∃ b, bits = b + 8 := ⟨bits - 8, by omega⟩
      rw [u8push_succ] at hy
      rcases List.mem_cons.mp hy with h | h
      · subst h
        exact Nat.mod_lt _ (by norm_num)
      · exact ih b (by omega) acc y h

theorem u52bGo_nil (acc bits : Nat) : u52bGo [] acc bits = [] := rfl

theorem u52bGo_cons (s : U5Bits) (ss : List U5Bits) (acc bits : Nat) :
    u52bGo (s :: ss) acc bits =
      (u8push (((acc <<< 5) ||| s.val) % 2 ^ 32) (bits + 5)).2 ++
        u52bGo ss (((acc <<< 5) ||| s.val) % 2 ^ 32)
          (u8push (((acc <<< 5) ||| s.val) % 2 ^ 32) (bits + 5)).1 := rfl

theorem div_assemble (A V m k f : Nat) (hfk : f ≤ m + k) :
    A / 2 ^ m * 2 ^ (m + k - f) + ((A % 2 ^ m) * 2 ^ k + V) / 2 ^ f =
      (A * 2 ^ k + V) / 2 ^ f := by
  have h := Nat.div_add_mod A (2 ^ m)
  have hnum : A * 2 ^ k + V = ((A % 2 ^ m) * 2 ^ k + V) + (A / 2 ^ m) * 2 ^ (m + k) := by
    rw [pow_add]
    calc A * 2 ^ k + V = (2 ^ m * (A / 2 ^ m) + A % 2 ^ m) * 2 ^ k + V := by rw [h]
      _ = ((A % 2 ^ m) * 2 ^ k + V) + (A / 2 ^ m) * (2 ^ m * 2 ^ k) := by ring
  rw [hnum]
  have hsplitp : (2:Nat) ^ (m + k) = 2 ^ (m + k - f) * 2 ^ f := by
    rw [← pow_add]
    congr 1
    omega
  rw [hsplitp]
  have hre : (A / 2 ^ m) * (2 ^ (m + k - f) * 2 ^ f) =
      ((A / 2 ^ m) * 2 ^ (m + k - f)) * 2 ^ f := by ring
  rw [hre, Nat.add_mul_div_right _ _ (Nat.pos_pow_of_pos _ (by norm_num))]
  exact Nat.add_comm _ _

theorem u52bGo_spec : ∀ (ss : List U5Bits) (acc bits : Nat), bits < 8 →
    (∀ s ∈ ss, s.val < 32) →
    8 * (u52bGo ss acc bits).length =
      bits + 5 * ss.length - (bits + 5 * ss.length) % 8 ∧
    (∀ y ∈ u52bGo ss acc bits, y < 256) ∧
    digitsVal 256 (u52bGo ss acc bits) =
      ((acc % 2 ^ bits) * 2 ^ (5 * ss.length) + digitsVal 32 (ss.map U5Bits.val)) /
        2 ^ ((bits + 5 * ss.length) % 8) := by
  intro ss
  induction ss with
  | nil =>
    intro acc bits hb _
    rw [u52bGo_nil]
    refine ⟨by simp; omega, by simp, ?_⟩
    have hd32 : digitsVal 32 ([] : List Nat) = 0 := rfl
    have hd256 : digitsVal 256 ([] : List Nat) = 0 := rfl
    simp only [List.map_nil, hd32, hd256, List.length_nil, Nat.mul_zero, pow_zero,
      Nat.mul_one, Nat.add_zero]
    rw [Nat.mod_eq_of_lt hb]
    have : acc % 2 ^ bits < 2 ^ bits := Nat.mod_lt _ (Nat.pos_pow_of_pos _ (by norm_num))
    rw [Nat.div_eq_of_lt this]
  | cons s ss ih =>
    intro acc bits hb hvals
    have hs : s.val < 32 := hvals s (List.mem_cons_self _ _)
    have hss : ∀ u ∈ ss, u.val < 32 := fun u hu => hvals u (List.mem_cons_of_mem _ hu)
    rw [u52bGo_cons]
    obtain ⟨s1, s2, s3⟩ := u8push_spec (bits + 5) (((acc <<< 5) ||| s.val) % 2 ^ 32)
    obtain ⟨r1, r2, r3⟩ := ih (((acc <<< 5) ||| s.val) % 2 ^ 32)
      ((u8push (((acc <<< 5) ||| s.val) % 2 ^ 32) (bits + 5)).1) (by rw [s1]; omega) hss
    have hacc2 : (((acc <<< 5) ||| s.val) % 2 ^ 32) % 2 ^ (bits + 5) =
        (acc % 2 ^ bits) * 32 + s.val := by
      rw [shiftLeft_or_of_lt acc (by simpa using hs : s.val < 2 ^ 5)]
      rw [Nat.mod_mod_of_dvd _ (pow_dvd_pow 2 (by omega : bits + 5 ≤ 32))]
      have hsplit : acc * 2 ^ 5 + s.val =
          2 ^ (bits + 5) * (acc / 2 ^ bits) + ((acc % 2 ^ bits) * 2 ^ 5 + s.val) := by
        have h := Nat.div_add_mod acc (2 ^ bits)
        calc acc * 2 ^ 5 + s.val
            = (2 ^ bits * (acc / 2 ^ bits) + acc % 2 ^ bits) * 2 ^ 5 + s.val := by rw [h]
          _ = (2 ^ bits * 2 ^ 5) * (acc / 2 ^ bits) + ((acc % 2 ^ bits) * 2 ^ 5 + s.val) := by
              ring
          _ = 2 ^ (bits + 5) * (acc / 2 ^ bits) + ((acc % 2 ^ bits) * 2 ^ 5 + s.val) := by
              rw [← pow_add]
      rw [hsplit, Nat.mul_add_mod]
      have hlt : (acc % 2 ^ bits) * 2 ^ 5 + s.val < 2 ^ (bits + 5) := by
        have hmod : acc % 2 ^ bits < 2 ^ bits :=
          Nat.mod_lt _ (Nat.pos_pow_of_pos _ (by norm_num))
        rw [pow_add]
        calc (acc % 2 ^ bits) * 2 ^ 5 + s.val < (acc % 2 ^ bits) * 2 ^ 5 + 2 ^ 5 := by omega
          _ = (acc % 2 ^ bits + 1) * 2 ^ 5 := by ring
          _ ≤ 2 ^ bits * 2 ^ 5 := Nat.mul_le_mul_right _ (by omega)
      rw [Nat.mod_eq_of_lt hlt]
      norm_num
    rw [s1] at r1 r2 r3
    have hmodeq : ((bits + 5) % 8 + 5 * ss.length) % 8 =
        (bits + 5 * (s :: ss).length) % 8 := by
      simp only [List.length_cons]
      omega
    refine ⟨?_, ?_, ?_⟩
    · rw [s1, List.length_append, Nat.mul_add, s2, r1, hmodeq]
      simp only [List.length_cons]
      omega
    · intro y hy
      rw [s1] at hy
      rcases List.mem_append.mp hy with h | h
      · exact u8push_byte_lt _ _ y h
      · exact r2 y h
    · rw [digitsVal_append, s1, s3, r3]
      have hm2 : (((acc <<< 5) ||| s.val) % 2 ^ 32) % 2 ^ ((bits + 5) % 8) =
          ((acc % 2 ^ bits) * 32 + s.val) % 2 ^ ((bits + 5) % 8) := by
        rw [← hacc2,
          Nat.mod_mod_of_dvd _ (pow_dvd_pow 2 (by omega : (bits + 5) % 8 ≤ bits + 5))]
      rw [hacc2, hm2, hmodeq]
      have hlen256 : (256:Nat) ^ (u52bGo ss (((acc <<< 5) ||| s.val) % 2 ^ 32)
            ((bits + 5) % 8)).length =
          2 ^ ((bits + 5) % 8 + 5 * ss.length - (bits + 5 * (s :: ss).length) % 8) := by
        have hL : ∀ L : Nat, (256:Nat) ^ L = 2 ^ (8 * L) := by
          intro L
          rw [Nat.pow_mul]
        rw [hL]
        congr 1
        rw [← hmodeq]
        omega
      rw [hlen256]
      rw [div_assemble _ _ _ _ _ (by simp only [List.length_cons]; omega)]
      have h32L : (32:Nat) ^ ss.length = 2 ^ (5 * ss.length) := by
        rw [Nat.pow_mul]
      have h5L1 : (2:Nat) ^ (5 * (s :: ss).length) = 32 * 2 ^ (5 * ss.length) := by
        simp only [List.length_cons]
        rw [(by ring : 5 * (ss.length + 1) = 5 + 5 * ss.length), pow_add]
        norm_num
      rw [List.map_cons, digitsVal_cons, List.length_map, h32L, h5L1]
      congr 1
      ring

end Bolt11Forge

namespace Bolt11Forge

theorem digitsVal_inj (base : Nat) :
    ∀ (xs ys : List Nat), xs.length = ys.length → (∀ x ∈ xs, x < base) →
      (∀ y ∈ ys, y < base) → digitsVal base xs = digitsVal base ys → xs = ys := by
  intro xs
  induction xs with
  | nil =>
    intro ys hlen _ _ _
    cases ys with
    | nil => rfl
    | cons y ys => simp at hlen
  | cons x xs ih =>
    intro ys hlen hx hy hval
    cases ys with
    | nil => simp at hlen
    | cons y ys =>
      simp only [List.length_cons] at hlen
      have hlen' : xs.length = ys.length := by omega
      have hbase : 0 < base := lt_of_le_of_lt (Nat.zero_le _) (hx x (List.mem_cons_self _ _))
      rw [digitsVal_cons, digitsVal_cons, hlen'] at hval
      have hVx : digitsVal base xs < base ^ ys.length := by
        rw [← hlen']
        exact digitsVal_lt base hbase xs (fun z hz => hx z (List.mem_cons_of_mem _ hz))
      have hVy : digitsVal base ys < base ^ ys.length :=
        digitsVal_lt base hbase ys (fun z hz => hy z (List.mem_cons_of_mem _ hz))
      have hxy : x = y := by
        have hdx : (x * base ^ ys.length + digitsVal base xs) / base ^ ys.length = x := by
          rw [Nat.mul_comm, Nat.mul_add_div (Nat.pos_pow_of_pos _ hbase),
            Nat.div_eq_of_lt hVx]
          omega
        have hdy : (y * base ^ ys.length + digitsVal base ys) / base ^ ys.length = y := by
          rw [Nat.mul_comm, Nat.mul_add_div (Nat.pos_pow_of_pos _ hbase),
            Nat.div_eq_of_lt hVy]
          omega
        rw [← hdx, ← hdy, hval]
      subst hxy
      have hV : digitsVal base xs = digitsVal base ys := by omega
      rw [ih ys hlen' (fun z hz => hx z (List.mem_cons_of_mem _ hz))
        (fun z hz => hy z (List.mem_cons_of_mem _ hz)) hV]

theorem repack_inverse (b : List Nat) (hb : ∀ x ∈ b, x < 256) :
    U5Bits.u5_bits_to_bytes (U5Bits.bytes_to_u5_bits b) = b := by
  obtain ⟨e1, e2⟩ := b2u5Go_spec b 0 0 (by norm_num) hb
  have hvals : ∀ u ∈ U5Bits.bytes_to_u5_bits b, u.val < 32 :=
    fun u hu => b2u5Go_val_lt b 0 0 u hu
  obtain ⟨d1, d2, d3⟩ := u52bGo_spec (U5Bits.bytes_to_u5_bits b) 0 0 (by norm_num) hvals
  simp only [Nat.zero_add, Nat.pow_zero, Nat.mod_one, Nat.zero_mul, Nat.zero_add] at e1 e2 d1 d3
  have hpadlt : pad5 (8 * b.length) < 5 := by
    simp only [pad5]
    omega
  show u52bGo (U5Bits.bytes_to_u5_bits b) 0 0 = b
  have hm : (U5Bits.bytes_to_u5_bits b).length = (b2u5Go b 0 0).length := rfl
  have hmod8 : (5 * (U5Bits.bytes_to_u5_bits b).length) % 8 = pad5 (8 * b.length) := by
    rw [hm]
    omega
  have hdv : digitsVal 256 (u52bGo (U5Bits.bytes_to_u5_bits b) 0 0) = digitsVal 256 b := by
    rw [d3, hmod8]
    have he2 : digitsVal 32 (List.map U5Bits.val (U5Bits.bytes_to_u5_bits b)) =
        digitsVal 256 b * 2 ^ pad5 (8 * b.length) := e2
    rw [he2]
    exact Nat.mul_div_cancel _ (Nat.pos_pow_of_pos _ (by norm_num))
  have hlen : (u52bGo (U5Bits.bytes_to_u5_bits b) 0 0).length = b.length := by
    rw [hm] at d1 hmod8
    omega
  exact digitsVal_inj 256 _ b hlen d2 hb hdv

/-- C2: converting a byte sequence to 5-bit groups with padding and
back to bytes yields a sequence that starts with the original bytes,
trailing zeros being the only permissible difference (here the
round-trip is in fact exact, so the trailing part is empty). -/
theorem c2_repack_roundtrip (b : List Nat) (hb : ∀ x ∈ b, x < 256) :
    ∃ t : List Nat, U5Bits.u5_bits_to_bytes (U5Bits.bytes_to_u5_bits b) = b ++ t ∧
      ∀ x ∈ t, x = 0 := by
  refine ⟨[], ?_, by simp⟩
  rw [List.append_nil]
  exact repack_inverse b hb

/-- C2 witness at the concrete bytes 0xAB 0xCD. -/
theorem c2_witness :
    ∃ t : List Nat, U5Bits.u5_bits_to_bytes (U5Bits.bytes_to_u5_bits [171, 205]) =
      [171, 205] ++ t ∧ ∀ x ∈ t, x = 0 :=
  c2_repack_roundtrip [171, 205] (by decide)

/-- C5 counterexample: a lone symbol of value 31 is five non-zero
residual bits; the claim says the conversion must fail with
`InvalidPadding`, but `u5_bits_to_bytes` succeeds, returning the empty
byte list and silently discarding the non-zero bits. -/
theorem c5_counterexample :
    U5Bits.u5_bits_to_bytes [⟨31⟩] = [] ∧ U5Bits.u5_bits_to_bytes [⟨0⟩] = [] :=
  ⟨rfl, rfl⟩

/-- C5 (amended): `u5_bits_to_bytes` is total — it never reports
`InvalidPadding`; it emits exactly `5*m/8` bytes and silently drops the
residual `5*m mod 8` low bits of the symbol stream, whether they are
zero or not. -/
theorem c5_silent_discard (data : List U5Bits) (h : ∀ s ∈ data, s.val < 32) :
    (U5Bits.u5_bits_to_bytes data).length = 5 * data.length / 8 ∧
    digitsVal 256 (U5Bits.u5_bits_to_bytes data) =
      digitsVal 32 (data.map U5Bits.val) / 2 ^ ((5 * data.length) % 8) := by
  obtain ⟨d1, _, d3⟩ := u52bGo_spec data 0 0 (by norm_num) h
  simp only [Nat.zero_add, Nat.pow_zero, Nat.mod_one, Nat.zero_mul, Nat.zero_add] at d1 d3
  constructor
  · show (u52bGo data 0 0).length = 5 * data.length / 8
    omega
  · exact d3

/-- C5 witness: symbols 31, 1 pack to the single byte 248, dropping the
two residual bits. -/
theorem c5_witness :
    (U5Bits.u5_bits_to_bytes [⟨31⟩, ⟨1⟩]).length = 5 * 2 / 8 ∧
    digitsVal 256 (U5Bits.u5_bits_to_bytes [⟨31⟩, ⟨1⟩]) =
      digitsVal 32 ([(⟨31⟩ : U5Bits), ⟨1⟩].map U5Bits.val) / 2 ^ ((5 * 2) % 8) := by
  have h := c5_silent_discard [⟨31⟩, ⟨1⟩] (by decide)
  simpa using h

end Bolt11Forge

namespace Bolt11Forge

/-! ### C4: amount shortening -/

/-- The `units` array of `shorten_amount`. -/
def shorten_units : List Char := ['p', 'n', 'u', 'm', ' ']

/-- The `for unit in units` loop of `shorten_amount`: divide by 1000
while evenly divisible and the unit is not the blank sentinel, else
break. -/
def shortenLoop : List Char → Nat → Nat
  | [], a => a
  | u :: rest, a => if a % 1000 = 0 ∧ u ≠ ' ' then shortenLoop rest (a / 1000) else a

/-- `shorten_amount`, taken after the `(amount * 1e12) as u64` cast: the
argument is the amount scaled to picounits.  Mirrors the source exactly,
including the final `units[units.len() - 1]` test (which always sees the
blank sentinel). -/
def shorten_amount_pico (pico : Nat) : List Char :=
  let amount := shortenLoop shorten_units pico
  if shorten_units.getD (shorten_units.length - 1) ' ' = ' ' then (Nat.repr amount).toList
  else (Nat.repr amount).toList ++ [shorten_units.getD (shorten_units.length - 1) ' ']

/-- Digit-string parser standing in for the `(\d+)` capture group. -/
def digitsToNat (cs : List Char) : Option Nat :=
  if cs ≠ [] ∧ cs.all (fun c => c.isDigit) then
    some (cs.foldl (fun a c => a * 10 + (c.toNat - 48)) 0)
  else none

/-- `unshorten_amount`, rescaled to picounits: the source divides the
parsed number by `10^{12,9,6,3,0}` for suffix `{p,n,u,m,none}`; in
pico scale that is multiplication by `10^{0,3,6,9,12}`. -/
def unshorten_amount_pico (s : List Char) : Option Nat :=
  match s.getLast? with
  | none => none
  | some last =>
    if last = 'p' then (digitsToNat s.dropLast).map (fun n => n)
    else if last = 'n' then (digitsToNat s.dropLast).map (fun n => n * 1000)
    else if last = 'u' then (digitsToNat s.dropLast).map (fun n => n * 1000000)
    else if last = 'm' then (digitsToNat s.dropLast).map (fun n => n * 1000000000)
    else (digitsToNat s).map (fun n => n * 1000000000000)

/-- C4: evaluation at the failing input.  For 2,500,000,000 picounits
the loop shortens to 2500 with final divisor `u`, but the code appends
no suffix (its suffix test reads `units[units.len()-1]`, the blank
sentinel), so the round trip yields 2,500,000,000,000,000 picounits,
not the original amount. -/
theorem c4_shorten_amount_bug :
    shorten_amount_pico 2500000000 = ['2', '5', '0', '0'] ∧
    unshorten_amount_pico (shorten_amount_pico 2500000000) =
      some 2500000000000000 ∧
    (2500000000000000 : Nat) ≠ 2500000000 := by
  refine ⟨by decide, by decide, by decide⟩

end Bolt11Forge

namespace Bolt11Forge

/-! ### The generic bit repacker of bolt11.rs (spec-modelled) -/

/-- Modelled from the spec: the inner emission loop of `repack`
(`convert_bits`), whose Rust definition is referenced by
`src/bolt11.rs` (`use crate::bech32::convert_bits`) but is not among
the files under `src/`.  Emits the top `toBits` bits of `acc` while the
pending bit count is at least `toBits`.  `fuel` only bounds the
iteration count for structural recursion; it is passed as `bits`, which
always suffices since each iteration removes `toBits ≥ 1` bits. -/
def cbPush (acc toBits : Nat) : Nat → Nat → Nat × List Nat
  | bits, 0 => (bits, [])
  | bits, fuel + 1 =>
    if 0 < toBits ∧ toBits ≤ bits then
      let p := cbPush acc toBits (bits - toBits) fuel
      (p.1, ((acc >>> (bits - toBits)) &&& (2 ^ toBits - 1)) :: p.2)
    else (bits, [])

/-- Modelled from the spec: the per-value loop of `convert_bits`.
Checks `InvalidInputValue`, shifts the value into the accumulator
masked to `fromBits + toBits - 1` bits, and emits full groups. -/
def convert_bits_loop (fromBits toBits : Nat) :
    List Nat → Nat → Nat → Except String (Nat × Nat × List Nat)
  | [], acc, bits => Except.ok (acc, bits, [])
  | v :: rest, acc, bits =>
    if 2 ^ fromBits ≤ v then Except.error "InvalidInputValue"
    else
      let acc2 := ((acc <<< fromBits) ||| v) &&& (2 ^ (fromBits + toBits - 1) - 1)
      let p := cbPush acc2 toBits (bits + fromBits) (bits + fromBits)
      match convert_bits_loop fromBits toBits rest acc2 p.1 with
      | Except.error e => Except.error e
      | Except.ok (accF, bitsF, out) => Except.ok (accF, bitsF, p.2 ++ out)

/-- Modelled from the spec: `convert_bits` (`repack`).  With `pad` the
residual bits are left-aligned into a final group; without `pad` it
fails `InvalidPadding` when the residue is at least `fromBits` bits or
its left-aligned value is non-zero. -/
def convert_bits (data : List Nat) (fromBits toBits : Nat) (pad : Bool) :
    Except String (List Nat) :=
  match convert_bits_loop fromBits toBits data 0 0 with
  | Except.error e => Except.error e
  | Except.ok (acc, bits, out) =>
    if pad then
      Except.ok (out ++
        (if 0 < bits then [(acc <<< (toBits - bits)) &&& (2 ^ toBits - 1)] else []))
    else if fromBits ≤ bits ∨ ((acc <<< (toBits - bits)) &&& (2 ^ toBits - 1)) ≠ 0 then
      Except.error "InvalidPadding"
    else
      Except.ok out

/-! ### C3: the 35-bit timestamp -/

/-- The timestamp portion of `invoice_encode` in `src/bolt11.rs`: the
low 35 bits of the date, most significant first, packed 1-to-5. -/
def invoice_encode_timestamp (date : Nat) : Except String (List Nat) :=
  convert_bits ((List.range 35).map (fun i => (date >>> (34 - i)) &&& 1)) 1 5 true

/-- The timestamp portion of `Invoice::encode` in `src/invoice.rs`:
the last five big-endian bytes of the `u64` timestamp converted to
5-bit groups, keeping the first seven groups. -/
def invoice_rs_timestamp_u5 (timestamp : Nat) : List U5Bits :=
  (U5Bits.bytes_to_u5_bits
    ((List.range 5).map (fun i => (timestamp >>> (8 * (4 - i))) % 256))).take 7

/-- The timestamp decoder of `invoice_decode` in `src/bolt11.rs`:
unpack the seven groups to bits and left-shift-accumulate, dropping
bits past index 35. -/
def decode_timestamp (ts5 : List Nat) : Except String Nat :=
  match convert_bits ts5 5 1 false with
  | Except.error e => Except.error e
  | Except.ok bits => Except.ok ((bits.take 35).foldl (fun d b => (d <<< 1) ||| b) 0)

/-- C3: evaluation at the failing input, timestamp 1.  The bolt11.rs
encoder carries the low 35 bits (the groups end in 1 and decode back to
1), but the invoice.rs encoder emits bits 39..5 of the timestamp — for
timestamp 1 all seven groups are zero and decode to 0, not
1 mod 2^35. -/
theorem c3_timestamp_bug :
    invoice_encode_timestamp 1 = Except.ok [0, 0, 0, 0, 0, 0, 1] ∧
    decode_timestamp [0, 0, 0, 0, 0, 0, 1] = Except.ok 1 ∧
    (invoice_rs_timestamp_u5 1).map U5Bits.val = [0, 0, 0, 0, 0, 0, 0] ∧
    decode_timestamp ((invoice_rs_timestamp_u5 1).map U5Bits.val) = Except.ok 0 ∧
    (0 : Nat) ≠ 1 % 2 ^ 35 := by
  exact ⟨rfl, rfl, by decide, rfl, by decide⟩

end Bolt11Forge

namespace Bolt11Forge

/-! ### The bolt11.rs invoice encoder front end and tag decoder -/

/-- `tagged_field` in `src/bolt11.rs`: alphabet index of the tag, the
10-bit group count split into two symbols, then the 8-to-5 packed
value. -/
def tagged_field (tag : Char) (data : List Nat) : Except String (List Nat) :=
  match position (fun x => x = tag) CHARSET with
  | none => Except.error "Invalid tag character"
  | some tagVal =>
    match convert_bits data 8 5 true with
    | Except.error e => Except.error e
    | Except.ok data5 =>
      Except.ok (tagVal :: data5.length / 32 :: data5.length % 32 :: data5)

/-- `InvoiceBolt11` in `src/bolt11.rs`.  The `f64` amount is modelled
pre-scaled to picounits (the value of `amount * 1e12`). -/
structure InvoiceBolt11 where
  currency : List Char
  amount : Option Nat
  date : Nat
  paymenthash : List Nat
  tags : List (Char × List Nat)

/-- One iteration of the tag loop of `invoice_encode`: duplicate check
for the single-instance tags, then dispatch (`d`, `h`, `x` supported,
anything else is an unknown tag), then record the tag as seen. -/
def invoice_tag_step (st : List Char × List Nat) (t : Char × List Nat) :
    Except String (List Char × List Nat) :=
  if (t.1 = 'd' ∨ t.1 = 'h' ∨ t.1 = 'n' ∨ t.1 = 'x') ∧ t.1 ∈ st.1 then
    Except.error ("Duplicate \x27" ++ Char.toString t.1 ++ "\x27 tag")
  else
    match (match t.1 with
      | 'd' => tagged_field 'd' t.2
      | 'h' => tagged_field 'h' t.2
      | 'x' => tagged_field 'x' t.2
      | c => Except.error ("Unknown tag: " ++ Char.toString c)) with
    | Except.error e => Except.error e
    | Except.ok fld => Except.ok (t.1 :: st.1, st.2 ++ fld)

/-- The deterministic front of `invoice_encode` in `src/bolt11.rs`:
hrp assembly and amount check, 35-bit timestamp, payment-hash field,
the tag loop, and the mandatory/conflicting description checks (lines
76–123).  Both error returns of interest happen in this portion,
before the signature engine (spec section 4.5, an external
collaborator) is ever reached; on success it returns the hrp and the
5-bit payload accumulated so far. -/
def invoice_encode_front (addr : InvoiceBolt11) :
    Except String (List Char × List Nat) :=
  match (match addr.amount with
    | none => Except.ok ([] : List Char)
    | some pico =>
      if pico % 10 ≠ 0 then Except.error "Too many decimal places in amount"
      else Except.ok (shorten_amount_pico pico)) with
  | Except.error e => Except.error e
  | Except.ok amountStr =>
    let hrp := ('l' :: 'n' :: addr.currency) ++ amountStr
    match convert_bits ((List.range 35).map (fun i => (addr.date >>> (34 - i)) &&& 1))
        1 5 true with
    | Except.error e => Except.error e
    | Except.ok ts5 =>
      match tagged_field 'p' addr.paymenthash with
      | Except.error e => Except.error e
      | Except.ok pTag =>
        match addr.tags.foldlM invoice_tag_step (([] : List Char), ts5 ++ pTag) with
        | Except.error e => Except.error e
        | Except.ok (seen, data5) =>
          if ¬ ('d' ∈ seen) ∧ ¬ ('h' ∈ seen) then
            Except.error "Must include either \x27d\x27 or \x27h\x27"
          else if 'd' ∈ seen ∧ 'h' ∈ seen then
            Except.error "Cannot include both \x27d\x27 and \x27h\x27"
          else Except.ok (hrp, data5)

/-- Strict UTF-8 validity of a byte list, standing in for
`String::from_utf8(..).is_ok()` in the decoder's `d` branch. -/
def validUTF8 : List Nat → Bool
  | [] => true
  | c :: r =>
    if c < 0x80 then validUTF8 r
    else if c < 0xC2 then false
    else if c < 0xE0 then
      match r with
      | c1 :: r1 => decide (0x80 ≤ c1 ∧ c1 ≤ 0xBF) && validUTF8 r1
      | [] => false
    else if c < 0xF0 then
      match r with
      | c1 :: c2 :: r2 =>
        (if c = 0xE0 then decide (0xA0 ≤ c1 ∧ c1 ≤ 0xBF)
         else if c = 0xED then decide (0x80 ≤ c1 ∧ c1 ≤ 0x9F)
         else decide (0x80 ≤ c1 ∧ c1 ≤ 0xBF)) &&
        decide (0x80 ≤ c2 ∧ c2 ≤ 0xBF) && validUTF8 r2
      | _ => false
    else if c < 0xF5 then
      match r with
      | c1 :: c2 :: c3 :: r3 =>
        (if c = 0xF0 then decide (0x90 ≤ c1 ∧ c1 ≤ 0xBF)
         else if c = 0xF4 then decide (0x80 ≤ c1 ∧ c1 ≤ 0x8F)
         else decide (0x80 ≤ c1 ∧ c1 ≤ 0xBF)) &&
        decide (0x80 ≤ c2 ∧ c2 ≤ 0xBF) && decide (0x80 ≤ c3 ∧ c3 ≤ 0xBF) && validUTF8 r3
      | _ => false
    else false

/-- The tag-walking loop of `invoice_decode` in `src/bolt11.rs` (lines
189–236), carried state is (paymenthash, tags).  The loop reads a tag
symbol and a 10-bit length, stops (without error) when fewer than 3
symbols or fewer than `length` symbols remain, and dispatches on the
alphabet character of the tag; no duplicate checking is performed.
`fuel` only bounds the iteration count for structural recursion; the
wrapper passes the payload length, which always suffices since every
iteration consumes at least three symbols. -/
def decode_tags_loop :
    Nat → List Nat → List Nat × List (Char × List Nat) →
      Except String (List Nat × List (Char × List Nat))
  | 0, _, st => Except.ok st
  | fuel + 1, t :: hi :: lo :: rest, st =>
    let len := hi * 32 + lo
    if rest.length < len then Except.ok st
    else
      let slice := rest.take len
      match CHARSET.get? t with
      | none => Except.error "Invalid tag"
      | some c =>
        if c = 'p' then
          match convert_bits slice 5 8 false with
          | Except.error e => Except.error e
          | Except.ok bytes =>
            decode_tags_loop fuel (rest.drop len)
              (if bytes.length = 32 then bytes else st.1, st.2)
        else if c = 'd' then
          match convert_bits slice 5 8 false with
          | Except.error e => Except.error e
          | Except.ok bytes =>
            decode_tags_loop fuel (rest.drop len)
              (st.1, if validUTF8 bytes then st.2 ++ [('d', bytes)] else st.2)
        else if c = 'h' then
          match convert_bits slice 5 8 false with
          | Except.error e => Except.error e
          | Except.ok bytes =>
            decode_tags_loop fuel (rest.drop len)
              (st.1, if bytes.length = 32 then st.2 ++ [('h', bytes)] else st.2)
        else if c = 'x' then
          decode_tags_loop fuel (rest.drop len) (st.1, st.2 ++ [('x', slice)])
        else
          decode_tags_loop fuel (rest.drop len) st
  | _ + 1, _, st => Except.ok st

/-- The tag walk over a 5-bit payload (after the 7 timestamp symbols). -/
def decode_tags (payload : List Nat) (st : List Nat × List (Char × List Nat)) :
    Except String (List Nat × List (Char × List Nat)) :=
  decode_tags_loop payload.length payload st

/-- An `x` (expiry) record as laid out on the wire: tag symbol 6, the
10-bit group count, then the raw groups. -/
def xfield (d : List Nat) : List Nat := 6 :: d.length / 32 :: d.length % 32 :: d

end Bolt11Forge

namespace Bolt11Forge

theorem convert_bits_loop_ok (fromBits toBits : Nat) :
    ∀ (data : List Nat) (acc bits : Nat), (∀ v ∈ data, v < 2 ^ fromBits) →
      ∃ r, convert_bits_loop fromBits toBits data acc bits = Except.ok r := by
  intro data
  induction data with
  | nil => intro acc bits _; exact ⟨_, rfl⟩
  | cons v rest ih =>
    intro acc bits h
    have hv : v < 2 ^ fromBits := h v (List.mem_cons_self _ _)
    obtain ⟨⟨accF, bitsF, out⟩, hr⟩ :=
      ih (((acc <<< fromBits) ||| v) &&& (2 ^ (fromBits + toBits - 1) - 1))
        (cbPush (((acc <<< fromBits) ||| v) &&& (2 ^ (fromBits + toBits - 1) - 1)) toBits
          (bits + fromBits) (bits + fromBits)).1
        (fun y hy => h y (List.mem_cons_of_mem _ hy))
    refine ⟨(accF, bitsF,
      (cbPush (((acc <<< fromBits) ||| v) &&& (2 ^ (fromBits + toBits - 1) - 1)) toBits
        (bits + fromBits) (bits + fromBits)).2 ++ out), ?_⟩
    simp only [convert_bits_loop]
    rw [if_neg (Nat.not_le.mpr hv), hr]

theorem convert_bits_pad_ok (data : List Nat) (fromBits toBits : Nat)
    (h : ∀ v ∈ data, v < 2 ^ fromBits) :
    ∃ out, convert_bits data fromBits toBits true = Except.ok out := by
  obtain ⟨⟨acc, bits, out⟩, hr⟩ := convert_bits_loop_ok fromBits toBits data 0 0 h
  refine ⟨out ++ (if 0 < bits then [(acc <<< (toBits - bits)) &&& (2 ^ toBits - 1)] else []), ?_⟩
  simp only [convert_bits]
  rw [hr]
  simp

theorem tagged_field_ok (c : Char) (i : Nat)
    (hc : position (fun x => x = c) CHARSET = some i) (data : List Nat)
    (hdata : ∀ b ∈ data, b < 256) :
    ∃ out, tagged_field c data = Except.ok out := by
  obtain ⟨out5, h5⟩ := convert_bits_pad_ok data 8 5 (by
    intro b hb
    simpa using hdata b hb)
  refine ⟨i :: out5.length / 32 :: out5.length % 32 :: out5, ?_⟩
  simp only [tagged_field]
  rw [hc, h5]

theorem tags_fold_ok :
    ∀ (tags : List (Char × List Nat)) (seen : List Char) (acc : List Nat),
      (∀ t ∈ tags, (t.1 = 'd' ∨ t.1 = 'h' ∨ t.1 = 'x') ∧ ∀ b ∈ t.2, b < 256) →
      (∀ t ∈ tags, t.1 ∉ seen) →
      (tags.map Prod.fst).Nodup →
      ∃ acc2, tags.foldlM invoice_tag_step (seen, acc) =
        Except.ok ((tags.map Prod.fst).reverse ++ seen, acc2) := by
  intro tags
  induction tags with
  | nil => intro seen acc _ _ _; exact ⟨acc, rfl⟩
  | cons t rest ih =>
    intro seen acc hall hseen hnodup
    obtain ⟨hkind, hbytes⟩ := hall t (List.mem_cons_self _ _)
    have hnotseen : t.1 ∉ seen := hseen t (List.mem_cons_self _ _)
    have hnd : t.1 ∉ rest.map Prod.fst ∧ (rest.map Prod.fst).Nodup := by
      rw [List.map_cons] at hnodup
      exact List.nodup_cons.mp hnodup
    have hfield : ∃ fld, (match t.1 with
        | 'd' => tagged_field 'd' t.2
        | 'h' => tagged_field 'h' t.2
        | 'x' => tagged_field 'x' t.2
        | c => Except.error ("Unknown tag: " ++ Char.toString c)) = Except.ok fld := by
      rcases hkind with h | h | h <;> rw [h]
      · exact tagged_field_ok 'd' 13 (by decide) t.2 hbytes
      · exact tagged_field_ok 'h' 23 (by decide) t.2 hbytes
      · exact tagged_field_ok 'x' 6 (by decide) t.2 hbytes
    obtain ⟨fld, hfld⟩ := hfield
    have hstep : invoice_tag_step (seen, acc) t = Except.ok (t.1 :: seen, acc ++ fld) := by
      simp only [invoice_tag_step]
      rw [if_neg (by
        intro hcon
        exact hnotseen hcon.2), hfld]
    obtain ⟨acc2, hacc2⟩ := ih (t.1 :: seen) (acc ++ fld)
      (fun u hu => hall u (List.mem_cons_of_mem _ hu))
      (fun u hu => by
        intro hmem
        rcases List.mem_cons.mp hmem with h | h
        · have hum : u.1 ∈ rest.map Prod.fst := List.mem_map_of_mem _ hu
          rw [h] at hum
          exact hnd.1 hum
        · exact hseen u (List.mem_cons_of_mem _ hu) h)
      hnd.2
    refine ⟨acc2, ?_⟩
    rw [List.foldlM_cons, hstep]
    show rest.foldlM invoice_tag_step (t.1 :: seen, acc ++ fld) = _
    rw [hacc2]
    congr 2
    simp [List.reverse_cons, List.append_assoc]

/-- C6: with well-formed supported tags, an invoice carrying neither a
`d` nor an `h` tag fails with the missing-description error, and one
carrying both fails with the conflicting-descriptions error; in both
cases `invoice_encode` returns an error, never a string. -/
theorem c6_description_mandatory (addr : InvoiceBolt11)
    (hamt : ∀ p, addr.amount = some p → p % 10 = 0)
    (hph : ∀ b ∈ addr.paymenthash, b < 256)
    (htags : ∀ t ∈ addr.tags, (t.1 = 'd' ∨ t.1 = 'h' ∨ t.1 = 'x') ∧ ∀ b ∈ t.2, b < 256)
    (hnodup : (addr.tags.map Prod.fst).Nodup) :
    ((∀ t ∈ addr.tags, t.1 ≠ 'd' ∧ t.1 ≠ 'h') →
      invoice_encode_front addr =
        Except.error "Must include either \x27d\x27 or \x27h\x27") ∧
    (('d' ∈ addr.tags.map Prod.fst ∧ 'h' ∈ addr.tags.map Prod.fst) →
      invoice_encode_front addr =
        Except.error "Cannot include both \x27d\x27 and \x27h\x27") := by
  have hamount : ∃ astr, (match addr.amount with
      | none => Except.ok ([] : List Char)
      | some pico =>
        if pico % 10 ≠ 0 then Except.error "Too many decimal places in amount"
        else Except.ok (shorten_amount_pico pico)) = Except.ok astr := by
    cases haa : addr.amount with
    | none => exact ⟨[], rfl⟩
    | some p =>
      have hp := hamt p haa
      refine ⟨shorten_amount_pico p, ?_⟩
      simp only []
      rw [if_neg (by
        intro hc
        exact hc hp)]
  obtain ⟨astr, hastr⟩ := hamount
  obtain ⟨ts5, hts5⟩ := convert_bits_pad_ok
    ((List.range 35).map (fun i => (addr.date >>> (34 - i)) &&& 1)) 1 5 (by
      intro v hv
      rcases List.mem_map.mp hv with ⟨i, _, rfl⟩
      have := Nat.and_le_right (n := addr.date >>> (34 - i)) (m := 1)
      omega)
  obtain ⟨pTag, hpTag⟩ := tagged_field_ok 'p' 1 (by decide) addr.paymenthash hph
  obtain ⟨acc2, hfold⟩ := tags_fold_ok addr.tags [] (ts5 ++ pTag) htags (by simp) hnodup
  constructor
  · intro hno
    have hd : ('d' : Char) ∉ (addr.tags.map Prod.fst).reverse ++ ([] : List Char) := by
      simp only [List.append_nil, List.mem_reverse]
      intro hmem
      rcases List.mem_map.mp hmem with ⟨u, hu, hu1⟩
      exact (hno u hu).1 hu1
    have hh : ('h' : Char) ∉ (addr.tags.map Prod.fst).reverse ++ ([] : List Char) := by
      simp only [List.append_nil, List.mem_reverse]
      intro hmem
      rcases List.mem_map.mp hmem with ⟨u, hu, hu1⟩
      exact (hno u hu).2 hu1
    simp only [invoice_encode_front, hastr, hts5, hpTag, hfold]
    rw [if_pos ⟨hd, hh⟩]
  · intro hboth
    have hd : ('d' : Char) ∈ (addr.tags.map Prod.fst).reverse ++ ([] : List Char) := by
      simp only [List.append_nil, List.mem_reverse]
      exact hboth.1
    have hh : ('h' : Char) ∈ (addr.tags.map Prod.fst).reverse ++ ([] : List Char) := by
      simp only [List.append_nil, List.mem_reverse]
      exact hboth.2
    simp only [invoice_encode_front, hastr, hts5, hpTag, hfold]
    rw [if_neg (by
      intro hcon
      exact hcon.1 hd), if_pos ⟨hd, hh⟩]

/-- C6 witness: a tag list with only an `x` tag yields the
missing-description error; a tag list with both `d` and `h` yields the
conflicting-descriptions error. -/
theorem c6_witness :
    invoice_encode_front ⟨['b', 'c'], none, 0, [], [('x', [1])]⟩ =
      Except.error "Must include either \x27d\x27 or \x27h\x27" ∧
    invoice_encode_front ⟨['b', 'c'], none, 0, [], [('d', [97]), ('h', [2])]⟩ =
      Except.error "Cannot include both \x27d\x27 and \x27h\x27" :=
  ⟨(c6_description_mandatory ⟨['b', 'c'], none, 0, [], [('x', [1])]⟩
      (fun p h => by cases h) (by simp) (by decide) (by decide)).1 (by decide),
   (c6_description_mandatory ⟨['b', 'c'], none, 0, [], [('d', [97]), ('h', [2])]⟩
      (fun p h => by cases h) (by simp) (by decide) (by decide)).2 (by decide)⟩

end Bolt11Forge

namespace Bolt11Forge

/-- C7 counterexample: for the `n` tag the claim fails — the encoder
rejects the invoice at the FIRST `n` occurrence with the unknown-tag
error, not at the second with a DuplicateTag error. -/
theorem c7_counterexample :
    invoice_encode_front ⟨['b', 'c'], none, 0, [], [('n', [0]), ('n', [0]), ('d', [])]⟩ =
      Except.error "Unknown tag: n" ∧
    ("Unknown tag: n" : String) ≠ "Duplicate \x27n\x27 tag" :=
  ⟨rfl, by decide⟩

theorem decode_tags_loop_nil (fuel : Nat) (st : List Nat × List (Char × List Nat)) :
    decode_tags_loop fuel [] st = Except.ok st := by
  cases fuel <;> rfl

theorem decode_tags_loop_x (fuel : Nat) (d rest2 : List Nat)
    (st : List Nat × List (Char × List Nat)) (_hd : d.length < 1024) :
    decode_tags_loop (fuel + 1) (xfield d ++ rest2) st =
      decode_tags_loop fuel rest2 (st.1, st.2 ++ [('x', d)]) := by
  show decode_tags_loop (fuel + 1) (6 :: d.length / 32 :: d.length % 32 :: (d ++ rest2)) st
    = _
  simp only [decode_tags_loop]
  have hdm : d.length / 32 * 32 + d.length % 32 = d.length := by omega
  rw [hdm]
  rw [if_neg (by
    simp only [List.length_append]
    omega)]
  have hget : CHARSET.get? 6 = some 'x' := rfl
  rw [hget]
  simp only [List.take_left, List.drop_left]
  rw [if_neg (by decide), if_neg (by decide), if_neg (by decide), if_pos trivial]

/-- C7 (amended): for the supported single-instance tags `d`, `h`, `x`,
a second occurrence makes `invoice_encode` fail with the DuplicateTag
error at that occurrence (an `n` tag instead fails as an unknown tag
already at its first occurrence, see the counterexample); the decoder,
by contrast, never rejects duplicated tags — walking two `x` records
succeeds and retains both. -/
theorem c7_duplicate_policy
    (addr : InvoiceBolt11) (pre rest : List (Char × List Nat)) (c : Char) (dat : List Nat)
    (hamt : ∀ p, addr.amount = some p → p % 10 = 0)
    (hph : ∀ b ∈ addr.paymenthash, b < 256)
    (hsplit : addr.tags = pre ++ (c, dat) :: rest)
    (hpre : ∀ t ∈ pre, (t.1 = 'd' ∨ t.1 = 'h' ∨ t.1 = 'x') ∧ ∀ b ∈ t.2, b < 256)
    (hnodup : (pre.map Prod.fst).Nodup)
    (hcin : c ∈ pre.map Prod.fst)
    (d1 d2 ph0 : List Nat) (tags0 : List (Char × List Nat))
    (h1 : d1.length < 1024) (h2 : d2.length < 1024) :
    invoice_encode_front addr =
      Except.error ("Duplicate \x27" ++ Char.toString c ++ "\x27 tag") ∧
    decode_tags (xfield d1 ++ xfield d2) (ph0, tags0) =
      Except.ok (ph0, tags0 ++ [('x', d1), ('x', d2)]) := by
  constructor
  · have hamount : ∃ astr, (match addr.amount with
        | none => Except.ok ([] : List Char)
        | some pico =>
          if pico % 10 ≠ 0 then Except.error "Too many decimal places in amount"
          else Except.ok (shorten_amount_pico pico)) = Except.ok astr := by
      cases haa : addr.amount with
      | none => exact ⟨[], rfl⟩
      | some p =>
        have hp := hamt p haa
        refine ⟨shorten_amount_pico p, ?_⟩
        simp only []
        rw [if_neg (by
          intro hc
          exact hc hp)]
    obtain ⟨astr, hastr⟩ := hamount
    obtain ⟨ts5, hts5⟩ := convert_bits_pad_ok
      ((List.range 35).map (fun i => (addr.date >>> (34 - i)) &&& 1)) 1 5 (by
        intro v hv
        rcases List.mem_map.mp hv with ⟨i, _, rfl⟩
        have := Nat.and_le_right (n := addr.date >>> (34 - i)) (m := 1)
        omega)
    obtain ⟨pTag, hpTag⟩ := tagged_field_ok 'p' 1 (by decide) addr.paymenthash hph
    have hckind : c = 'd' ∨ c = 'h' ∨ c = 'x' := by
      rcases List.mem_map.mp hcin with ⟨u, hu, hu1⟩
      rcases (hpre u hu).1 with h | h | h
      · exact Or.inl (hu1.symm.trans h)
      · exact Or.inr (Or.inl (hu1.symm.trans h))
      · exact Or.inr (Or.inr (hu1.symm.trans h))
    obtain ⟨acc2, hfoldpre⟩ := tags_fold_ok pre [] (ts5 ++ pTag) hpre (by simp) hnodup
    have hcseen : c ∈ (pre.map Prod.fst).reverse ++ ([] : List Char) := by
      simp only [List.append_nil, List.mem_reverse]
      exact hcin
    have hstep : invoice_tag_step ((pre.map Prod.fst).reverse ++ [], acc2) (c, dat) =
        Except.error ("Duplicate \x27" ++ Char.toString c ++ "\x27 tag") := by
      simp only [invoice_tag_step]
      rw [if_pos ⟨by
        rcases hckind with h | h | h <;> simp [h], hcseen⟩]
    have hbind : ∀ {α β : Type} (a : α) (f : α → Except String β),
        (Except.ok a >>= f) = f a := fun _ _ => rfl
    simp only [invoice_encode_front, hastr, hts5, hpTag, hsplit, List.foldlM_append,
      hfoldpre, List.foldlM_cons]
    rw [hbind, hstep]
    rfl
  · simp only [decode_tags]
    have hfl : (xfield d1 ++ xfield d2).length = (d1.length + (d2.length + 5)) + 1 := by
      simp only [xfield, List.length_append, List.length_cons]
      omega
    rw [hfl, decode_tags_loop_x _ d1 _ _ h1]
    have hfl2 : d1.length + (d2.length + 5) = (d1.length + (d2.length + 4)) + 1 := by
      omega
    rw [hfl2, (List.append_nil (xfield d2)).symm, decode_tags_loop_x _ d2 [] _ h2,
      decode_tags_loop_nil]
    simp [List.append_assoc]

/-- C7 witness: an invoice whose tags are d, x, x fails with the
duplicate-x error, and decoding two concrete x records keeps both. -/
theorem c7_witness :
    invoice_encode_front ⟨['b', 'c'], none, 0, [], [('d', [97]), ('x', [1]), ('x', [2])]⟩ =
      Except.error ("Duplicate \x27" ++ Char.toString 'x' ++ "\x27 tag") ∧
    decode_tags (xfield [1, 2, 3] ++ xfield [4, 5]) ([], []) =
      Except.ok ([], [] ++ [('x', [1, 2, 3]), ('x', [4, 5])]) :=
  c7_duplicate_policy ⟨['b', 'c'], none, 0, [], [('d', [97]), ('x', [1]), ('x', [2])]⟩
    [('d', [97]), ('x', [1])] [] 'x' [2]
    (fun p h => by cases h) (by simp) rfl (by decide) (by decide) (by decide)
    [1, 2, 3] [4, 5] [] [] (by decide) (by decide)

end Bolt11Forge

namespace Bolt11Forge

/-! ### C10: field order of the invoice.rs serializer -/

/-- `Invoice` in `src/invoice.rs`; fixed-size arrays and the
description string are byte lists, `u64`/`u16` fields are `Nat`. -/
structure Invoice where
  amount_msat : Option Nat
  payment_hash : List Nat
  payment_secret : List Nat
  description : List Nat
  expiry : Option Nat
  min_final_cltv_expiry : Option Nat
  features : List Nat
  timestamp : Nat

/-- `TaggedField::encode` in `src/invoice.rs`: tag symbol, the group
count split into two symbols, then the 8-to-5 packed value.  The tags
used by `Invoice::encode` are the constants 1, 16, 13, 5, 6, 24, all
valid for the `U5Bits::new(..).unwrap()` calls. -/
def TaggedField.encode (tag : Nat) (data : List Nat) : List U5Bits :=
  let dataU5 := U5Bits.bytes_to_u5_bits data
  ⟨tag⟩ :: ⟨(dataU5.length >>> 5) &&& 31⟩ :: ⟨dataU5.length &&& 31⟩ :: dataU5

/-- `Invoice::encode_features`: minimal big-endian byte string with bit
`f mod 8` of byte `num_bytes - 1 - f / 8` set for each feature index. -/
def encode_features (features : List Nat) : List Nat :=
  if features = [] then []
  else
    let maxF := features.foldl max 0
    let numBytes := maxF / 8 + 1
    (List.range numBytes).map (fun i =>
      features.foldl (fun acc f =>
        if numBytes - 1 - f / 8 = i then acc ||| (1 <<< (f % 8)) else acc) 0)

/-- The data portion assembled by `Invoice::encode` before the
signature is appended: 7 timestamp groups, then the p, s and d fields
unconditionally, then features (only if non-empty), expiry and
min-final-CLTV (only if present). -/
def invoice_data (inv : Invoice) : List U5Bits :=
  (U5Bits.bytes_to_u5_bits
      ((List.range 5).map (fun i => (inv.timestamp >>> (8 * (4 - i))) % 256))).take 7
    ++ TaggedField.encode 1 inv.payment_hash
    ++ TaggedField.encode 16 inv.payment_secret
    ++ TaggedField.encode 13 inv.description
    ++ (if inv.features = [] then []
        else TaggedField.encode 5 (encode_features inv.features))
    ++ (match inv.expiry with
        | none => []
        | some e =>
          TaggedField.encode 6 ((List.range 8).map (fun i => (e >>> (8 * (7 - i))) % 256)))
    ++ (match inv.min_final_cltv_expiry with
        | none => []
        | some cv =>
          TaggedField.encode 24 ((List.range 2).map (fun i => (cv >>> (8 * (1 - i))) % 256)))

/-- The record walk of the decoder loop in `src/bolt11.rs` (lines
190–207), stripped of the per-tag dispatch: reads (tag, 10-bit length,
value) records, stopping at a truncated header or value.  `fuel` is
only for structural recursion; the wrapper passes the payload length,
which suffices since each record consumes at least three symbols. -/
def parse_fields_go : Nat → List Nat → List (Nat × List Nat)
  | 0, _ => []
  | fuel + 1, t :: hi :: lo :: rest =>
    let len := hi * 32 + lo
    if rest.length < len then []
    else (t, rest.take len) :: parse_fields_go fuel (rest.drop len)
  | _ + 1, _ => []

/-- Record walk over a payload. -/
def parse_fields (payload : List Nat) : List (Nat × List Nat) :=
  parse_fields_go payload.length payload

theorem parse_fields_go_step (fuel t : Nat) (d rest2 : List Nat) :
    parse_fields_go (fuel + 1) (t :: d.length / 32 :: d.length % 32 :: (d ++ rest2)) =
      (t, d) :: parse_fields_go fuel rest2 := by
  simp only [parse_fields_go]
  have hdm : d.length / 32 * 32 + d.length % 32 = d.length := by omega
  rw [hdm, if_neg (by
    simp only [List.length_append]
    omega), List.take_left, List.drop_left]

theorem parse_fields_go_nil (fuel : Nat) : parse_fields_go fuel [] = [] := by
  cases fuel <;> rfl

theorem parse_fields_go_records :
    ∀ (recs : List (Nat × List Nat)) (fuel : Nat) (payload : List Nat),
      payload = (recs.map (fun r => r.1 :: r.2.length / 32 :: r.2.length % 32 :: r.2)).flatten →
      payload.length ≤ fuel →
      parse_fields_go fuel payload = recs := by
  intro recs
  induction recs with
  | nil =>
    intro fuel payload hp _
    subst hp
    exact parse_fields_go_nil fuel
  | cons r rest ih =>
    intro fuel payload hp hfuel
    subst hp
    simp only [List.map_cons, List.flatten_cons] at hfuel ⊢
    obtain ⟨f, rfl⟩ : ∃ f, fuel = f + 1 := by
      refine ⟨fuel - 1, ?_⟩
      simp only [List.length_append, List.length_cons] at hfuel
      omega
    show parse_fields_go (f + 1)
      (r.1 :: r.2.length / 32 :: r.2.length % 32 :: (r.2 ++ _)) = _
    rw [parse_fields_go_step]
    congr 1
    apply ih _ _ rfl
    simp only [List.length_append, List.length_cons] at hfuel
    omega

end Bolt11Forge

namespace Bolt11Forge

theorem bytes_to_u5_len (xs : List Nat) (h : ∀ x ∈ xs, x < 256) :
    (U5Bits.bytes_to_u5_bits xs).length = (8 * xs.length + 4) / 5 := by
  obtain ⟨e1, _⟩ := b2u5Go_spec xs 0 0 (by norm_num) h
  simp only [Nat.zero_add] at e1
  have hp : pad5 (8 * xs.length) = (5 - (8 * xs.length) % 5) % 5 := rfl
  show (b2u5Go xs 0 0).length = _
  omega

theorem tagged_encode_eq (tag : Nat) (data : List Nat)
    (h : (U5Bits.bytes_to_u5_bits data).length < 1024) :
    (TaggedField.encode tag data).map U5Bits.val =
      tag :: (U5Bits.bytes_to_u5_bits data).length / 32 ::
        (U5Bits.bytes_to_u5_bits data).length % 32 ::
        (U5Bits.bytes_to_u5_bits data).map U5Bits.val := by
  simp only [TaggedField.encode, List.map_cons]
  have h1 : ((U5Bits.bytes_to_u5_bits data).length >>> 5) &&& 31 =
      (U5Bits.bytes_to_u5_bits data).length / 32 := by
    rw [and31_eq_mod, Nat.shiftRight_eq_div_pow]
    have h32 : (2:Nat) ^ 5 = 32 := by norm_num
    rw [h32]
    omega
  have h2 : (U5Bits.bytes_to_u5_bits data).length &&& 31 =
      (U5Bits.bytes_to_u5_bits data).length % 32 := and31_eq_mod _
  rw [h1, h2]

theorem foldl_max_le (b : Nat) :
    ∀ (l : List Nat) (a : Nat), a ≤ b → (∀ x ∈ l, x ≤ b) → l.foldl max a ≤ b := by
  intro l
  induction l with
  | nil => intro a ha _; exact ha
  | cons x xs ih =>
    intro a ha hall
    simp only [List.foldl_cons]
    exact ih (max a x) (max_le ha (hall x (List.mem_cons_self _ _)))
      (fun y hy => hall y (List.mem_cons_of_mem _ hy))

theorem encode_features_byte_lt (features : List Nat) :
    ∀ y ∈ encode_features features, y < 256 := by
  have aux : ∀ (l : List Nat) (nb i acc : Nat), acc < 256 →
      l.foldl (fun acc f => if nb - 1 - f / 8 = i then acc ||| (1 <<< (f % 8)) else acc)
        acc < 256 := by
    intro l
    induction l with
    | nil => intro nb i acc h; exact h
    | cons f fs ih =>
      intro nb i acc h
      simp only [List.foldl_cons]
      apply ih
      split
      · apply Nat.or_lt_two_pow (n := 8) (by simpa using h)
        rw [Nat.shiftLeft_eq, Nat.one_mul]
        calc (2:Nat) ^ (f % 8) ≤ 2 ^ 7 := Nat.pow_le_pow_right (by norm_num) (by omega)
          _ < 2 ^ 8 := by norm_num
      · exact h
  intro y hy
  simp only [encode_features] at hy
  split at hy
  · simp at hy
  · rcases List.mem_map.mp hy with ⟨i, _, rfl⟩
    exact aux features _ i 0 (by norm_num)

theorem encode_features_len (features : List Nat) (h : ¬ features = []) :
    (encode_features features).length = features.foldl max 0 / 8 + 1 := by
  simp only [encode_features, if_neg h, List.length_map, List.length_range]

end Bolt11Forge

namespace Bolt11Forge

/-- C10: walking the field portion of `Invoice::encode`'s payload with
the record grammar of the decoder yields exactly the records payment
hash (tag 1), payment secret (tag 16) and description (tag 13) — the
latter two emitted unconditionally, even for a default secret or an
empty description — followed, only if present, by features (tag 5),
expiry (tag 6) and min-final-CLTV (tag 24), in that fixed order; an
empty feature set contributes no record. -/
theorem c10_field_order (inv : Invoice)
    (hph_len : inv.payment_hash.length = 32) (hphb : ∀ b ∈ inv.payment_hash, b < 256)
    (hps_len : inv.payment_secret.length = 32) (hpsb : ∀ b ∈ inv.payment_secret, b < 256)
    (hd_len : inv.description.length ≤ 639) (hdb : ∀ b ∈ inv.description, b < 256)
    (hfb : ∀ f ∈ inv.features, f < 256) :
    parse_fields (((invoice_data inv).drop 7).map U5Bits.val) =
      [(1, (U5Bits.bytes_to_u5_bits inv.payment_hash).map U5Bits.val),
       (16, (U5Bits.bytes_to_u5_bits inv.payment_secret).map U5Bits.val),
       (13, (U5Bits.bytes_to_u5_bits inv.description).map U5Bits.val)]
      ++ (if inv.features = [] then []
          else [(5, (U5Bits.bytes_to_u5_bits (encode_features inv.features)).map U5Bits.val)])
      ++ (match inv.expiry with
          | none => []
          | some e => [(6, (U5Bits.bytes_to_u5_bits
              ((List.range 8).map (fun i => (e >>> (8 * (7 - i))) % 256))).map U5Bits.val)])
      ++ (match inv.min_final_cltv_expiry with
          | none => []
          | some cv => [(24, (U5Bits.bytes_to_u5_bits
              ((List.range 2).map (fun i => (cv >>> (8 * (1 - i))) % 256))).map U5Bits.val)]) := by
  have htsbytes : ∀ x ∈ (List.range 5).map
      (fun i => (inv.timestamp >>> (8 * (4 - i))) % 256), x < 256 := by
    intro x hx
    rcases List.mem_map.mp hx with ⟨i, _, rfl⟩
    exact Nat.mod_lt _ (by norm_num)
  have hts_len : ((U5Bits.bytes_to_u5_bits ((List.range 5).map
      (fun i => (inv.timestamp >>> (8 * (4 - i))) % 256))).take 7).length = 7 := by
    rw [List.length_take, bytes_to_u5_len _ htsbytes]
    simp
  have hdrop : (invoice_data inv).drop 7 =
      TaggedField.encode 1 inv.payment_hash ++ (TaggedField.encode 16 inv.payment_secret ++
      (TaggedField.encode 13 inv.description ++ ((if inv.features = [] then []
        else TaggedField.encode 5 (encode_features inv.features)) ++
      ((match inv.expiry with
        | none => []
        | some e => TaggedField.encode 6
            ((List.range 8).map (fun i => (e >>> (8 * (7 - i))) % 256))) ++
      (match inv.min_final_cltv_expiry with
        | none => []
        | some cv => TaggedField.encode 24
            ((List.range 2).map (fun i => (cv >>> (8 * (1 - i))) % 256))))))) := by
    simp only [invoice_data, List.append_assoc]
    rw [List.drop_left' hts_len]
  have hb1 : (U5Bits.bytes_to_u5_bits inv.payment_hash).length < 1024 := by
    rw [bytes_to_u5_len _ hphb, hph_len]
    norm_num
  have hb16 : (U5Bits.bytes_to_u5_bits inv.payment_secret).length < 1024 := by
    rw [bytes_to_u5_len _ hpsb, hps_len]
    norm_num
  have hb13 : (U5Bits.bytes_to_u5_bits inv.description).length < 1024 := by
    rw [bytes_to_u5_len _ hdb]
    omega
  have pieceF : (if inv.features = [] then ([] : List U5Bits)
        else TaggedField.encode 5 (encode_features inv.features)).map U5Bits.val =
      ((if inv.features = [] then ([] : List (Nat × List Nat))
        else [(5, (U5Bits.bytes_to_u5_bits (encode_features inv.features)).map U5Bits.val)]).map
        (fun r : Nat × List Nat => r.1 :: r.2.length / 32 :: r.2.length % 32 :: r.2)).flatten := by
    by_cases hfe : inv.features = []
    · simp [hfe]
    · have hbF : (U5Bits.bytes_to_u5_bits (encode_features inv.features)).length < 1024 := by
        rw [bytes_to_u5_len _ (encode_features_byte_lt _), encode_features_len _ hfe]
        have hmax : inv.features.foldl max 0 ≤ 255 :=
          foldl_max_le 255 _ 0 (by norm_num) (fun x hx => by
            have := hfb x hx
            omega)
        omega
      simp only [if_neg hfe, List.map_cons, List.map_nil, List.flatten_cons, List.flatten_nil,
        List.append_nil, List.length_map]
      rw [tagged_encode_eq 5 _ hbF]
  have pieceX : (match inv.expiry with
        | none => ([] : List U5Bits)
        | some e => TaggedField.encode 6
            ((List.range 8).map (fun i => (e >>> (8 * (7 - i))) % 256))).map U5Bits.val =
      ((match inv.expiry with
        | none => ([] : List (Nat × List Nat))
        | some e => [(6, (U5Bits.bytes_to_u5_bits
            ((List.range 8).map (fun i => (e >>> (8 * (7 - i))) % 256))).map U5Bits.val)]).map
        (fun r : Nat × List Nat => r.1 :: r.2.length / 32 :: r.2.length % 32 :: r.2)).flatten := by
    cases hx : inv.expiry with
    | none => simp
    | some e =>
      have hbX : (U5Bits.bytes_to_u5_bits
          ((List.range 8).map (fun i => (e >>> (8 * (7 - i))) % 256))).length < 1024 := by
        rw [bytes_to_u5_len _ (by
          intro x hxm
          rcases List.mem_map.mp hxm with ⟨i, _, rfl⟩
          exact Nat.mod_lt _ (by norm_num))]
        simp
      simp only [List.map_cons, List.map_nil, List.flatten_cons, List.flatten_nil,
        List.append_nil, List.length_map]
      rw [tagged_encode_eq 6 _ hbX]
  have pieceC : (match inv.min_final_cltv_expiry with
        | none => ([] : List U5Bits)
        | some cv => TaggedField.encode 24
            ((List.range 2).map (fun i => (cv >>> (8 * (1 - i))) % 256))).map U5Bits.val =
      ((match inv.min_final_cltv_expiry with
        | none => ([] : List (Nat × List Nat))
        | some cv => [(24, (U5Bits.bytes_to_u5_bits
            ((List.range 2).map (fun i => (cv >>> (8 * (1 - i))) % 256))).map U5Bits.val)]).map
        (fun r : Nat × List Nat => r.1 :: r.2.length / 32 :: r.2.length % 32 :: r.2)).flatten := by
    cases hc : inv.min_final_cltv_expiry with
    | none => simp
    | some cv =>
      have hbC : (U5Bits.bytes_to_u5_bits
          ((List.range 2).map (fun i => (cv >>> (8 * (1 - i))) % 256))).length < 1024 := by
        rw [bytes_to_u5_len _ (by
          intro x hxm
          rcases List.mem_map.mp hxm with ⟨i, _, rfl⟩
          exact Nat.mod_lt _ (by norm_num))]
        simp
      simp only [List.map_cons, List.map_nil, List.flatten_cons, List.flatten_nil,
        List.append_nil, List.length_map]
      rw [tagged_encode_eq 24 _ hbC]
  rw [hdrop]
  simp only [List.map_append]
  show parse_fields_go _ _ = _
  apply parse_fields_go_records _ _ _ ?heq (le_refl _)
  case heq =>
    rw [tagged_encode_eq 1 _ hb1, tagged_encode_eq 16 _ hb16, tagged_encode_eq 13 _ hb13,
      pieceF, pieceX, pieceC]
    simp [List.map_append, List.flatten_append, List.flatten_cons, List.append_nil,
      List.length_map, List.append_assoc]

/-- C10 witness: a concrete invoice with default secret, empty
description and no optional fields yields exactly the three mandatory
records. -/
theorem c10_witness :
    parse_fields (((invoice_data
        ⟨none, List.replicate 32 5, List.replicate 32 1, [], none, none, [], 0⟩).drop 7).map
        U5Bits.val) =
      [(1, (U5Bits.bytes_to_u5_bits (List.replicate 32 5)).map U5Bits.val),
       (16, (U5Bits.bytes_to_u5_bits (List.replicate 32 1)).map U5Bits.val),
       (13, (U5Bits.bytes_to_u5_bits ([] : List Nat)).map U5Bits.val)]
      ++ [] ++ [] ++ [] :=
  c10_field_order ⟨none, List.replicate 32 5, List.replicate 32 1, [], none, none, [], 0⟩
    (by decide) (by decide) (by decide) (by decide) (by decide) (by decide) (by decide)

end Bolt11Forge
